import Mathlib

/-!
Verification of the block-mapped VFS core of `sqlite_ddbvfs.py`.

Byte strings are modelled as lists of byte values (`List Nat`); the DynamoDB
table partition `BL_<path>` is modelled as an association list from block
number to stored bytes kept in ascending block-number order (DynamoDB stores
items sorted by sort key and `Query` returns them in that order).  Machine
integers in the Python source are unbounded, so `Nat`/`Int` model them exactly.
-/

namespace DDBVFS

/-- Byte strings: one `Nat` per byte. -/
abbrev Bytes := List Nat

/-- `bytes(n)` in Python: `n` zero bytes. -/
def zeros (n : Nat) : Bytes := List.replicate n 0

/-- Shallow embedding of the generator `DDBVFSFile._blocks(offset, amount)`,
with explicit fuel.  Each step yields `(block, start, consume)` with
`block = offset / block_size`, `start = offset % block_size`,
`consume = min (block_size - start) amount`, then advances `offset` and
decreases `amount` by `consume`, until `amount = 0`. -/
def blocksAux : Nat → Nat → Nat → Nat → List (Nat × Nat × Nat)
  | 0, _, _, _ => []
  | fuel + 1, bsz, offset, amount =>
    if amount = 0 then []
    else
      let block := offset / bsz
      let strt := offset % bsz
      let consume := min (bsz - strt) amount
      (block, strt, consume) :: blocksAux fuel bsz (offset + consume) (amount - consume)

/-- `_blocks` with the canonical fuel `amount`, which suffices whenever
`0 < block_size` (each loop iteration consumes at least one byte). -/
def blocks (bsz offset amount : Nat) : List (Nat × Nat × Nat) :=
  blocksAux amount bsz offset amount

theorem consume_pos (bsz offset amount : Nat) (hb : 0 < bsz) (ha : 0 < amount) :
    0 < min (bsz - offset % bsz) amount := by
  have h1 : offset % bsz < bsz := Nat.mod_lt _ hb
  exact lt_min (Nat.sub_pos_of_lt h1) ha

theorem blocksAux_fuel_irrel (bsz : Nat) (hb : 0 < bsz) :
    ∀ f1 f2 offset amount, amount ≤ f1 → amount ≤ f2 →
      blocksAux f1 bsz offset amount = blocksAux f2 bsz offset amount := by
  intro f1
  induction f1 with
  | zero =>
    intro f2 offset amount h1 _
    have hz : amount = 0 := Nat.le_zero.mp h1
    subst hz
    cases f2 with
    | zero => rfl
    | succ g => simp [blocksAux]
  | succ f ih =>
    intro f2 offset amount h1 h2
    cases Nat.eq_zero_or_pos amount with
    | inl hz =>
      subst hz
      cases f2 with
      | zero => rfl
      | succ g => simp [blocksAux]
    | inr hpos =>
      have hne : amount ≠ 0 := Nat.pos_iff_ne_zero.mp hpos
      cases f2 with
      | zero => exact absurd (Nat.le_zero.mp h2) hne
      | succ g =>
        have hc : 0 < min (bsz - offset % bsz) amount :=
          consume_pos bsz offset amount hb hpos
        simp only [blocksAux, if_neg hne]
        have hr : amount - min (bsz - offset % bsz) amount ≤ f := by omega
        have hr2 : amount - min (bsz - offset % bsz) amount ≤ g := by omega
        exact congrArg _ (ih g _ _ hr hr2)

theorem blocksAux_stable (bsz : Nat) (hb : 0 < bsz) (fuel offset amount : Nat)
    (h : amount ≤ fuel) :
    blocksAux fuel bsz offset amount = blocks bsz offset amount :=
  blocksAux_fuel_irrel bsz hb fuel amount offset amount h (Nat.le_refl _)

/-- One-step unfolding of `blocks`, valid for positive block size. -/
theorem blocks_eq (bsz offset amount : Nat) (hb : 0 < bsz) :
    blocks bsz offset amount =
      if amount = 0 then []
      else
        (offset / bsz, offset % bsz, min (bsz - offset % bsz) amount) ::
          blocks bsz (offset + min (bsz - offset % bsz) amount)
            (amount - min (bsz - offset % bsz) amount) := by
  cases Nat.eq_zero_or_pos amount with
  | inl hz => subst hz; rfl
  | inr hpos =>
    have hne : amount ≠ 0 := Nat.pos_iff_ne_zero.mp hpos
    obtain ⟨a, rfl⟩ : ∃ a, amount = a + 1 := ⟨amount - 1, by omega⟩
    have hc : 0 < min (bsz - offset % bsz) (a + 1) :=
      consume_pos bsz offset (a + 1) hb hpos
    show blocksAux (a + 1) bsz offset (a + 1) = _
    simp only [blocksAux, if_neg hne]
    rw [blocksAux_stable bsz hb a _ _ (by omega)]

theorem blocks_sum_consume (bsz : Nat) (hb : 0 < bsz) :
    ∀ amount offset, ((blocks bsz offset amount).map (fun t => t.2.2)).sum = amount := by
  intro amount
  induction amount using Nat.strong_induction_on with
  | _ amount ih =>
    intro offset
    rw [blocks_eq bsz offset amount hb]
    cases Nat.eq_zero_or_pos amount with
    | inl hz => subst hz; simp
    | inr hpos =>
      have hne : amount ≠ 0 := Nat.pos_iff_ne_zero.mp hpos
      have hc : 0 < min (bsz - offset % bsz) amount :=
        consume_pos bsz offset amount hb hpos
      rw [if_neg hne]
      simp only [List.map_cons, List.sum_cons]
      rw [ih _ (by omega)]
      omega

theorem blocks_consume_ge_one (bsz : Nat) (hb : 0 < bsz) :
    ∀ amount offset t, t ∈ blocks bsz offset amount → 1 ≤ t.2.2 := by
  intro amount
  induction amount using Nat.strong_induction_on with
  | _ amount ih =>
    intro offset t ht
    rw [blocks_eq bsz offset amount hb] at ht
    cases Nat.eq_zero_or_pos amount with
    | inl hz => subst hz; simp at ht
    | inr hpos =>
      have hne : amount ≠ 0 := Nat.pos_iff_ne_zero.mp hpos
      have hc : 0 < min (bsz - offset % bsz) amount :=
        consume_pos bsz offset amount hb hpos
      rw [if_neg hne] at ht
      rcases List.mem_cons.mp ht with h | h
      · subst h; exact hc
      · exact ih _ (by omega) _ _ h

theorem blocks_block_ge (bsz : Nat) (hb : 0 < bsz) :
    ∀ amount offset t, t ∈ blocks bsz offset amount → offset / bsz ≤ t.1 := by
  intro amount
  induction amount using Nat.strong_induction_on with
  | _ amount ih =>
    intro offset t ht
    rw [blocks_eq bsz offset amount hb] at ht
    cases Nat.eq_zero_or_pos amount with
    | inl hz => subst hz; simp at ht
    | inr hpos =>
      have hne : amount ≠ 0 := Nat.pos_iff_ne_zero.mp hpos
      have hc : 0 < min (bsz - offset % bsz) amount :=
        consume_pos bsz offset amount hb hpos
      rw [if_neg hne] at ht
      rcases List.mem_cons.mp ht with h | h
      · subst h; rfl
      · have := ih _ (by omega) _ _ h
        have hmono : offset / bsz ≤ (offset + min (bsz - offset % bsz) amount) / bsz :=
          Nat.div_le_div_right (Nat.le_add_right _ _)
        omega

/-- After consuming to the end of a block, the next offset starts the next block. -/
theorem next_block_div (bsz offset : Nat) (hb : 0 < bsz) :
    (offset + (bsz - offset % bsz)) / bsz = offset / bsz + 1 := by
  have h1 : offset % bsz < bsz := Nat.mod_lt _ hb
  have h2 : offset + (bsz - offset % bsz) = (offset / bsz + 1) * bsz := by
    have h3 := Nat.div_add_mod offset bsz
    rw [Nat.add_mul, one_mul, Nat.mul_comm]
    omega
  rw [h2, Nat.mul_div_cancel _ hb]

theorem blocks_chain (bsz : Nat) (hb : 0 < bsz) :
    ∀ amount offset,
      List.Chain' (fun a b : Nat × Nat × Nat => a.1 < b.1) (blocks bsz offset amount) := by
  intro amount
  induction amount using Nat.strong_induction_on with
  | _ amount ih =>
    intro offset
    rw [blocks_eq bsz offset amount hb]
    cases Nat.eq_zero_or_pos amount with
    | inl hz => subst hz; simp
    | inr hpos =>
      have hne : amount ≠ 0 := Nat.pos_iff_ne_zero.mp hpos
      have hc : 0 < min (bsz - offset % bsz) amount :=
        consume_pos bsz offset amount hb hpos
      rw [if_neg hne]
      apply List.chain'_cons'.mpr
      refine ⟨?_, ih _ (by omega) _⟩
      intro t ht
      have hmem : t ∈ blocks bsz (offset + min (bsz - offset % bsz) amount)
          (amount - min (bsz - offset % bsz) amount) := List.mem_of_mem_head? ht
      have hge := blocks_block_ge bsz hb _ _ t hmem
      by_cases hfull : bsz - offset % bsz ≤ amount
      · have hcv : min (bsz - offset % bsz) amount = bsz - offset % bsz :=
          min_eq_left hfull
        rw [hcv] at hge
        rw [next_block_div bsz offset hb] at hge
        omega
      · have hcv : min (bsz - offset % bsz) amount = amount :=
          min_eq_right (by omega)
        rw [hcv] at hmem
        simp [blocks, blocksAux] at hmem

/-- C10: for every `block_size ≥ 1`, `offset ≥ 0` and `amount ≥ 0`, the
block-coordinate generator `_blocks(offset, amount)` terminates (any fuel of at
least `amount` iterations stabilizes to the same finite list of triples), every
yielded `consume` is at least 1, the block numbers are strictly increasing
along the list, and the `consume` values sum to `amount`. -/
theorem C10_blocks_generator (bsz offset amount : Nat) (hb : 0 < bsz) :
    (∀ fuel, amount ≤ fuel → blocksAux fuel bsz offset amount = blocks bsz offset amount) ∧
    ((blocks bsz offset amount).map (fun t => t.2.2)).sum = amount ∧
    (∀ t ∈ blocks bsz offset amount, 1 ≤ t.2.2) ∧
    List.Chain' (fun a b : Nat × Nat × Nat => a.1 < b.1) (blocks bsz offset amount) :=
  ⟨fun fuel hf => blocksAux_stable bsz hb fuel offset amount hf,
   blocks_sum_consume bsz hb amount offset,
   fun t ht => blocks_consume_ge_one bsz hb amount offset t ht,
   blocks_chain bsz hb amount offset⟩

theorem C10_blocks_generator_witness :
    blocksAux 12 4 3 10 = blocks 4 3 10 ∧
    ((blocks 4 3 10).map (fun t => t.2.2)).sum = 10 ∧
    (∀ t ∈ blocks 4 3 10, 1 ≤ t.2.2) ∧
    List.Chain' (fun a b : Nat × Nat × Nat => a.1 < b.1) (blocks 4 3 10) :=
  ⟨(C10_blocks_generator 4 3 10 (by decide)).1 12 (by decide),
   (C10_blocks_generator 4 3 10 (by decide)).2.1,
   (C10_blocks_generator 4 3 10 (by decide)).2.2.1,
   (C10_blocks_generator 4 3 10 (by decide)).2.2.2⟩

/-! ## The block store

The `BL_<path>` partition of the table: block items keyed by block number,
in ascending key order.  `get_block` returns empty bytes for a missing item
(`_block_get_bytes`); `put_block` overwrites or inserts keeping the order
(DynamoDB `put_item`); `delete_block` removes the item. -/

/-- The block items of one path. -/
abbrev Store := List (Nat × Bytes)

/-- `_block_get_bytes`: stored data, or empty bytes when absent. -/
def getBlock : Store → Nat → Bytes
  | [], _ => []
  | (k, d) :: rest, b => if k = b then d else getBlock rest b

/-- `put_item` on the sorted item list: replace or insert in key order. -/
def putBlock : Store → Nat → Bytes → Store
  | [], b, d => [(b, d)]
  | (k, e) :: rest, b, d =>
    if b < k then (b, d) :: (k, e) :: rest
    else if b = k then (b, d) :: rest
    else (k, e) :: putBlock rest b d

/-- `delete_item`: remove the item with the given key, if present. -/
def deleteBlock : Store → Nat → Store
  | [], _ => []
  | (k, e) :: rest, b => if k = b then rest else (k, e) :: deleteBlock rest b

/-- `_block_put_bytes`: store the bytes and return the signed size delta
`len(new) - old.size` (`old.size = 0` when the item was absent). -/
def putBytes (s : Store) (b : Nat) (d : Bytes) : Store × Int :=
  (putBlock s b d, (d.length : Int) - (getBlock s b).length)

/-- Sum of the stored `size` attributes (equals the data lengths). -/
def sumLen (s : Store) : Nat := (s.map (fun e => e.2.length)).sum

/-- Keys appear in strictly ascending order (DynamoDB sort-key order). -/
def sortedStore (s : Store) : Prop := List.Pairwise (· < ·) (s.map Prod.fst)

instance (s : Store) : Decidable (sortedStore s) := by
  unfold sortedStore; infer_instance

theorem putBlock_cons_lt {k b : Nat} (e d : Bytes) (rest : Store) (h : b < k) :
    putBlock ((k, e) :: rest) b d = (b, d) :: (k, e) :: rest := by
  simp [putBlock, h]

theorem putBlock_cons_eq {b : Nat} (e d : Bytes) (rest : Store) :
    putBlock ((b, e) :: rest) b d = (b, d) :: rest := by
  simp [putBlock]

theorem putBlock_cons_gt {k b : Nat} (e d : Bytes) (rest : Store) (h : k < b) :
    putBlock ((k, e) :: rest) b d = (k, e) :: putBlock rest b d := by
  have h1 : ¬ b < k := by omega
  have h2 : ¬ b = k := by omega
  simp [putBlock, h1, h2]

theorem getBlock_cons_eq {k : Nat} (d : Bytes) (rest : Store) :
    getBlock ((k, d) :: rest) k = d := by
  simp [getBlock]

theorem getBlock_cons_ne {k b : Nat} (d : Bytes) (rest : Store) (h : k ≠ b) :
    getBlock ((k, d) :: rest) b = getBlock rest b := by
  simp [getBlock, h]

theorem sumLen_cons (k : Nat) (d : Bytes) (rest : Store) :
    sumLen ((k, d) :: rest) = d.length + sumLen rest := by
  simp [sumLen]

theorem sortedStore_cons {k : Nat} {d : Bytes} {rest : Store} :
    sortedStore ((k, d) :: rest) ↔
      (∀ a ∈ rest.map Prod.fst, k < a) ∧ sortedStore rest := by
  unfold sortedStore
  simp [List.pairwise_cons]

theorem getBlock_putBlock_self (s : Store) (b : Nat) (d : Bytes) :
    getBlock (putBlock s b d) b = d := by
  induction s with
  | nil => simp [putBlock, getBlock]
  | cons e rest ih =>
    obtain ⟨k, v⟩ := e
    by_cases h1 : b < k
    · rw [putBlock_cons_lt v d rest h1, getBlock_cons_eq]
    · by_cases h2 : b = k
      · subst h2
        rw [putBlock_cons_eq v d rest, getBlock_cons_eq]
      · have hgt : k < b := by omega
        rw [putBlock_cons_gt v d rest hgt, getBlock_cons_ne _ _ (by omega), ih]

theorem getBlock_putBlock_ne (s : Store) (b b' : Nat) (d : Bytes) (h : b' ≠ b) :
    getBlock (putBlock s b d) b' = getBlock s b' := by
  induction s with
  | nil =>
    show getBlock [(b, d)] b' = getBlock [] b'
    rw [getBlock_cons_ne _ _ (by omega)]
  | cons e rest ih =>
    obtain ⟨k, v⟩ := e
    by_cases h1 : b < k
    · rw [putBlock_cons_lt v d rest h1, getBlock_cons_ne _ _ (by omega)]
    · by_cases h2 : b = k
      · subst h2
        rw [putBlock_cons_eq v d rest, getBlock_cons_ne _ _ (by omega),
          getBlock_cons_ne _ _ (by omega)]
      · have hgt : k < b := by omega
        rw [putBlock_cons_gt v d rest hgt]
        by_cases h3 : k = b'
        · subst h3
          rw [getBlock_cons_eq, getBlock_cons_eq]
        · rw [getBlock_cons_ne _ _ h3, getBlock_cons_ne _ _ h3, ih]

theorem mem_key_putBlock (s : Store) (b : Nat) (d : Bytes) :
    ∀ k ∈ (putBlock s b d).map Prod.fst, k = b ∨ k ∈ s.map Prod.fst := by
  induction s with
  | nil =>
    intro k hk
    simp only [putBlock, List.map_cons, List.map_nil, List.mem_singleton] at hk
    exact Or.inl hk
  | cons e rest ih =>
    obtain ⟨k0, v⟩ := e
    intro k hk
    by_cases h1 : b < k0
    · rw [putBlock_cons_lt v d rest h1] at hk
      simp only [List.map_cons, List.mem_cons] at hk
      rcases hk with h | h | h
      · exact Or.inl h
      · exact Or.inr (by simp only [List.map_cons, List.mem_cons]; exact Or.inl h)
      · exact Or.inr (by simp only [List.map_cons, List.mem_cons]; exact Or.inr h)
    · by_cases h2 : b = k0
      · subst h2
        rw [putBlock_cons_eq v d rest] at hk
        simp only [List.map_cons, List.mem_cons] at hk
        rcases hk with h | h
        · exact Or.inl h
        · exact Or.inr (by simp only [List.map_cons, List.mem_cons]; exact Or.inr h)
      · have hgt : k0 < b := by omega
        rw [putBlock_cons_gt v d rest hgt] at hk
        simp only [List.map_cons, List.mem_cons] at hk
        rcases hk with h | h
        · exact Or.inr (by simp only [List.map_cons, List.mem_cons]; exact Or.inl h)
        · rcases ih k h with h' | h'
          · exact Or.inl h'
          · exact Or.inr (by simp only [List.map_cons, List.mem_cons]; exact Or.inr h')

theorem sorted_putBlock (s : Store) (b : Nat) (d : Bytes) (hs : sortedStore s) :
    sortedStore (putBlock s b d) := by
  induction s with
  | nil => simp [putBlock, sortedStore]
  | cons e rest ih =>
    obtain ⟨k0, v⟩ := e
    obtain ⟨hlt, hrest⟩ := sortedStore_cons.mp hs
    by_cases h1 : b < k0
    · rw [putBlock_cons_lt v d rest h1]
      refine sortedStore_cons.mpr ⟨?_, sortedStore_cons.mpr ⟨hlt, hrest⟩⟩
      intro a ha
      simp only [List.map_cons, List.mem_cons] at ha
      rcases ha with h | h
      · omega
      · have := hlt a h; omega
    · by_cases h2 : b = k0
      · subst h2
        rw [putBlock_cons_eq v d rest]
        exact sortedStore_cons.mpr ⟨hlt, hrest⟩
      · have hgt : k0 < b := by omega
        rw [putBlock_cons_gt v d rest hgt]
        refine sortedStore_cons.mpr ⟨?_, ih hrest⟩
        intro a ha
        rcases mem_key_putBlock rest b d a ha with h | h
        · omega
        · exact hlt a h

theorem getBlock_eq_nil_of_lt_keys (s : Store) (b : Nat)
    (h : ∀ k ∈ s.map Prod.fst, b < k) : getBlock s b = [] := by
  induction s with
  | nil => rfl
  | cons e rest ih =>
    obtain ⟨k0, v⟩ := e
    have hk0 : b < k0 := h k0 (by simp)
    rw [getBlock_cons_ne _ _ (by omega)]
    exact ih (fun k hk => h k (by simp only [List.map_cons, List.mem_cons]; exact Or.inr hk))

theorem sumLen_putBlock (s : Store) (b : Nat) (d : Bytes) (hs : sortedStore s) :
    (sumLen (putBlock s b d) : Int) = sumLen s + d.length - (getBlock s b).length := by
  induction s with
  | nil => simp [putBlock, sumLen, getBlock]
  | cons e rest ih =>
    obtain ⟨k0, v⟩ := e
    obtain ⟨hlt, hrest⟩ := sortedStore_cons.mp hs
    by_cases h1 : b < k0
    · have hnil : getBlock ((k0, v) :: rest) b = [] := by
        apply getBlock_eq_nil_of_lt_keys
        intro k hk
        simp only [List.map_cons, List.mem_cons] at hk
        rcases hk with h | h
        · omega
        · have := hlt k h; omega
      rw [putBlock_cons_lt v d rest h1, hnil, sumLen_cons, sumLen_cons]
      simp only [List.length_nil]
      push_cast
      ring
    · by_cases h2 : b = k0
      · subst h2
        rw [putBlock_cons_eq v d rest, getBlock_cons_eq, sumLen_cons, sumLen_cons]
        push_cast
        ring
      · have hgt : k0 < b := by omega
        rw [putBlock_cons_gt v d rest hgt, getBlock_cons_ne _ _ (by omega),
          sumLen_cons, sumLen_cons]
        have hI := ih hrest
        push_cast at hI ⊢
        omega

/-! ## File handle operations

`FileState` bundles the `BL_<path>` partition with the `FSIZE/<path>` counter
(absent counter reads as 0; `ADD size Δ` creates it, so an `Int` models it). -/

structure FileState where
  blocks : Store
  total : Int
deriving DecidableEq

/-- `DDBVFSFile.xRead(amount, offset)`: for each `(block, start, consume)`
triple read the block and slice `[start, start+consume)`, then concatenate. -/
def xRead (bsz : Nat) (s : Store) (amount offset : Nat) : Bytes :=
  ((blocks bsz offset amount).map
    (fun t => ((getBlock s t.1).drop t.2.1).take t.2.2)).flatten

/-- The SQLite byte-lock page offset `1_073_741_824`. -/
def lockPageOffset : Nat := 1073741824

/-- The backward zero-padding loop of `DDBVFSFile.xWrite`: starting from
`block` and visiting at most `n` blocks downward, pad each block shorter than
`block_size` with zero bytes up to `block_size`, stopping at the first block
that is already full.  Accumulates the store and the signed size delta. -/
def padLoop (bsz : Nat) : Nat → Nat → Store × Int → Store × Int
  | 0, _, acc => acc
  | n + 1, block, acc =>
    let orig := getBlock acc.1 block
    if orig.length = bsz then acc
    else
      let pd := putBytes acc.1 block (orig ++ zeros (bsz - orig.length))
      padLoop bsz n (block - 1) (pd.1, acc.2 + pd.2)

/-- The bytes stored for one triple of `DDBVFSFile.xWrite`: the new piece is
`data[data_offset : data_offset+write]`; a write not covering a full block
(`start ≠ 0` or the piece shorter than `block_size`) read-modify-writes: the
existing block is right-padded with zeros up to `start`, the piece spliced in
at `[start, start+write)`, and the tail beyond `start+write` re-appended. -/
def writeData (bsz : Nat) (s : Store) (block strt write : Nat) (data : Bytes)
    (dataOff : Nat) : Bytes :=
  let piece := (data.drop dataOff).take write
  if strt ≠ 0 ∨ piece.length ≠ bsz then
    let orig := getBlock s block
    let orig2 := orig ++ zeros (strt - orig.length)
    orig2.take strt ++ piece ++ orig2.drop (strt + write)
  else piece

/-- The per-block write loop of `DDBVFSFile.xWrite`. -/
def writeLoop (bsz : Nat) (data : Bytes) :
    List (Nat × Nat × Nat) → Nat → Store × Int → Store × Int
  | [], _, acc => acc
  | (block, strt, write) :: rest, dataOff, acc =>
    let pd := putBytes acc.1 block (writeData bsz acc.1 block strt write data dataOff)
    writeLoop bsz data rest (dataOff + write) (pd.1, acc.2 + pd.2)

theorem writeLoop_cons (bsz : Nat) (data : Bytes) (block strt write dataOff : Nat)
    (rest : List (Nat × Nat × Nat)) (s : Store) (ds : Int) :
    writeLoop bsz data ((block, strt, write) :: rest) dataOff (s, ds) =
      writeLoop bsz data rest (dataOff + write)
        (putBlock s block (writeData bsz s block strt write data dataOff),
         ds + (((writeData bsz s block strt write data dataOff).length : Int)
           - (getBlock s block).length)) := by
  simp [writeLoop, putBytes]

/-- `DDBVFSFile.xWrite(data, offset)`: the lock-page padding phase (only when
`offset = lock_page_offset + len(data)`), the per-block write loop, then a
single `update_total` with the accumulated size delta. -/
def xWrite (bsz : Nat) (st : FileState) (data : Bytes) (offset : Nat) : FileState :=
  let padded :=
    if offset = lockPageOffset + data.length then
      let dataFirstBlock := offset / bsz
      let lockPageBlock := lockPageOffset / bsz
      padLoop bsz (dataFirstBlock - lockPageBlock) (dataFirstBlock - 1) (st.blocks, 0)
    else (st.blocks, 0)
  let written := writeLoop bsz data (blocks bsz offset data.length) 0 padded
  { blocks := written.1, total := st.total + written.2 }

/-- The block scan of `DDBVFSFile.xTruncate`: walk the block items in key
order keeping a running `total` of their sizes; each block keeps its first
`to_keep = max(size - total + newsize, 0)` bytes — deleted when `to_keep = 0`,
rewritten when `to_keep < size`, untouched otherwise.  Returns the remaining
items and the accumulated signed size delta. -/
def truncLoop (newsize : Int) : Store → Int → Store × Int
  | [], _ => ([], 0)
  | (rng, d) :: rest, total =>
    let sizeB : Int := d.length
    let total2 := total + sizeB
    let toKeep := max (sizeB - total2 + newsize) 0
    if toKeep = 0 then
      let r := truncLoop newsize rest total2
      (r.1, -sizeB + r.2)
    else if toKeep < sizeB then
      let keep := d.take toKeep.toNat
      let r := truncLoop newsize rest total2
      ((rng, keep) :: r.1, ((keep.length : Int) - sizeB) + r.2)
    else
      let r := truncLoop newsize rest total2
      ((rng, d) :: r.1, r.2)

/-- `DDBVFSFile.xTruncate(newsize)`: scan all blocks, then apply a single
`update_total` with the accumulated delta. -/
def xTruncate (st : FileState) (newsize : Nat) : FileState :=
  let r := truncLoop (newsize : Int) st.blocks 0
  { blocks := r.1, total := st.total + r.2 }

/-- File content: concatenation of the block data in key (= file) order. -/
def fileContent (s : Store) : Bytes := (s.map (fun e => e.2)).flatten

/-- A VFS data operation on one path. -/
inductive FileOp where
  | write (data : Bytes) (offset : Nat)
  | truncate (newsize : Nat)
deriving DecidableEq

def applyOp (bsz : Nat) (st : FileState) : FileOp → FileState
  | .write d o => xWrite bsz st d o
  | .truncate n => xTruncate st n

def applySeq (bsz : Nat) (st : FileState) (ops : List FileOp) : FileState :=
  ops.foldl (applyOp bsz) st

/-- The C1 invariant: the stored `FSIZE` counter equals the sum of the block
data lengths, and the block items are in strictly ascending key order. -/
def sizeOk (st : FileState) : Prop :=
  sortedStore st.blocks ∧ st.total = (sumLen st.blocks : Int)

instance (st : FileState) : Decidable (sizeOk st) := by
  unfold sizeOk; infer_instance

/-! ## C1: the size counter tracks the sum of block sizes -/

theorem padLoop_sorted_delta (bsz : Nat) :
    ∀ n block acc, sortedStore acc.1 →
      sortedStore (padLoop bsz n block acc).1 ∧
      (padLoop bsz n block acc).2 =
        acc.2 + ((sumLen (padLoop bsz n block acc).1 : Int) - sumLen acc.1) := by
  intro n
  induction n with
  | zero =>
    intro block acc hs
    refine ⟨hs, ?_⟩
    simp [padLoop]
  | succ n ih =>
    intro block acc hs
    obtain ⟨s, ds⟩ := acc
    by_cases hfull : (getBlock s block).length = bsz
    · have hstep : padLoop bsz (n + 1) block (s, ds) = (s, ds) := by
        simp [padLoop, hfull]
      rw [hstep]
      refine ⟨hs, by omega⟩
    · have hstep : padLoop bsz (n + 1) block (s, ds) =
        padLoop bsz n (block - 1)
          (putBlock s block (getBlock s block ++ zeros (bsz - (getBlock s block).length)),
           ds + (((getBlock s block ++ zeros (bsz - (getBlock s block).length)).length : Int)
             - (getBlock s block).length)) := by
        simp [padLoop, hfull, putBytes]
      rw [hstep]
      have hs' := sorted_putBlock s block
        (getBlock s block ++ zeros (bsz - (getBlock s block).length)) hs
      obtain ⟨h1, h2⟩ := ih (block - 1)
        (putBlock s block (getBlock s block ++ zeros (bsz - (getBlock s block).length)),
         ds + (((getBlock s block ++ zeros (bsz - (getBlock s block).length)).length : Int)
           - (getBlock s block).length)) hs'
      refine ⟨h1, ?_⟩
      dsimp only at h2 ⊢
      rw [h2]
      have hput := sumLen_putBlock s block
        (getBlock s block ++ zeros (bsz - (getBlock s block).length)) hs
      omega

theorem writeLoop_sorted_delta (bsz : Nat) (data : Bytes) :
    ∀ tr dataOff acc, sortedStore acc.1 →
      sortedStore (writeLoop bsz data tr dataOff acc).1 ∧
      (writeLoop bsz data tr dataOff acc).2 =
        acc.2 + ((sumLen (writeLoop bsz data tr dataOff acc).1 : Int) - sumLen acc.1) := by
  intro tr
  induction tr with
  | nil =>
    intro dataOff acc hs
    refine ⟨hs, ?_⟩
    simp [writeLoop]
  | cons t rest ih =>
    intro dataOff acc hs
    obtain ⟨block, strt, write⟩ := t
    obtain ⟨s, ds⟩ := acc
    rw [writeLoop_cons]
    have hs' := sorted_putBlock s block (writeData bsz s block strt write data dataOff) hs
    obtain ⟨h1, h2⟩ := ih (dataOff + write)
      (putBlock s block (writeData bsz s block strt write data dataOff),
       ds + (((writeData bsz s block strt write data dataOff).length : Int)
         - (getBlock s block).length)) hs'
    refine ⟨h1, ?_⟩
    dsimp only at h2 ⊢
    rw [h2]
    have hput := sumLen_putBlock s block (writeData bsz s block strt write data dataOff) hs
    omega

theorem truncLoop_delta (ns : Int) :
    ∀ l t, (truncLoop ns l t).2 = (sumLen (truncLoop ns l t).1 : Int) - sumLen l := by
  intro l
  induction l with
  | nil => intro t; simp [truncLoop, sumLen]
  | cons e rest ih =>
    intro t
    obtain ⟨rng, d⟩ := e
    by_cases h0 : max ((d.length : Int) - (t + d.length) + ns) 0 = 0
    · have hstep : truncLoop ns ((rng, d) :: rest) t =
          ((truncLoop ns rest (t + d.length)).1,
           -(d.length : Int) + (truncLoop ns rest (t + d.length)).2) := by
        simp only [truncLoop]
        rw [if_pos h0]
      rw [hstep]
      have := ih (t + d.length)
      rw [sumLen_cons]
      push_cast
      omega
    · by_cases h1 : max ((d.length : Int) - (t + d.length) + ns) 0 < d.length
      · have hstep : truncLoop ns ((rng, d) :: rest) t =
            ((rng, d.take (max ((d.length : Int) - (t + d.length) + ns) 0).toNat) ::
               (truncLoop ns rest (t + d.length)).1,
             (((d.take (max ((d.length : Int) - (t + d.length) + ns) 0).toNat).length : Int)
               - d.length) + (truncLoop ns rest (t + d.length)).2) := by
          simp only [truncLoop]
          rw [if_neg h0, if_pos h1]
        rw [hstep]
        have := ih (t + d.length)
        rw [sumLen_cons, sumLen_cons]
        push_cast
        omega
      · have hstep : truncLoop ns ((rng, d) :: rest) t =
            ((rng, d) :: (truncLoop ns rest (t + d.length)).1,
             (truncLoop ns rest (t + d.length)).2) := by
          simp only [truncLoop]
          rw [if_neg h0, if_neg h1]
        rw [hstep]
        have := ih (t + d.length)
        rw [sumLen_cons, sumLen_cons]
        push_cast
        omega

theorem truncLoop_keys_sublist (ns : Int) :
    ∀ l t, ((truncLoop ns l t).1.map Prod.fst).Sublist (l.map Prod.fst) := by
  intro l
  induction l with
  | nil => intro t; simp [truncLoop]
  | cons e rest ih =>
    intro t
    obtain ⟨rng, d⟩ := e
    by_cases h0 : max ((d.length : Int) - (t + d.length) + ns) 0 = 0
    · have hstep : (truncLoop ns ((rng, d) :: rest) t).1 =
          (truncLoop ns rest (t + d.length)).1 := by
        simp only [truncLoop]
        rw [if_pos h0]
      rw [hstep]
      exact (ih (t + d.length)).trans (List.sublist_cons_self _ _)
    · by_cases h1 : max ((d.length : Int) - (t + d.length) + ns) 0 < d.length
      · have hstep : (truncLoop ns ((rng, d) :: rest) t).1 =
            (rng, d.take (max ((d.length : Int) - (t + d.length) + ns) 0).toNat) ::
              (truncLoop ns rest (t + d.length)).1 := by
          simp only [truncLoop]
          rw [if_neg h0, if_pos h1]
        rw [hstep]
        simp only [List.map_cons]
        exact (ih (t + d.length)).cons₂ rng
      · have hstep : (truncLoop ns ((rng, d) :: rest) t).1 =
            (rng, d) :: (truncLoop ns rest (t + d.length)).1 := by
          simp only [truncLoop]
          rw [if_neg h0, if_neg h1]
        rw [hstep]
        simp only [List.map_cons]
        exact (ih (t + d.length)).cons₂ rng

theorem truncLoop_sorted (ns : Int) (l : Store) (t : Int) (hs : sortedStore l) :
    sortedStore (truncLoop ns l t).1 :=
  List.Pairwise.sublist (truncLoop_keys_sublist ns l t) hs

theorem applyOp_sizeOk (bsz : Nat) (st : FileState) (op : FileOp) (h : sizeOk st) :
    sizeOk (applyOp bsz st op) := by
  obtain ⟨hsort, htot⟩ := h
  cases op with
  | write data offset =>
    show sizeOk (xWrite bsz st data offset)
    unfold xWrite
    by_cases hc : offset = lockPageOffset + data.length
    · rw [if_pos hc]
      obtain ⟨h1, h2⟩ := padLoop_sorted_delta bsz (offset / bsz - lockPageOffset / bsz)
        (offset / bsz - 1) (st.blocks, 0) hsort
      obtain ⟨h3, h4⟩ := writeLoop_sorted_delta bsz data
        (blocks bsz offset data.length) 0 _ h1
      refine ⟨h3, ?_⟩
      simp only at h2 h4 ⊢
      omega
    · rw [if_neg hc]
      obtain ⟨h3, h4⟩ := writeLoop_sorted_delta bsz data
        (blocks bsz offset data.length) 0 (st.blocks, 0) hsort
      refine ⟨h3, ?_⟩
      simp only at h4 ⊢
      omega
  | truncate n =>
    show sizeOk (xTruncate st n)
    unfold xTruncate
    refine ⟨truncLoop_sorted _ _ _ hsort, ?_⟩
    have := truncLoop_delta (n : Int) st.blocks 0
    simp only
    omega

/-- C1: starting from a state where the `FSIZE` counter equals the sum of the
block sizes (e.g. the empty file), after every sequence of `xWrite` and
`xTruncate` operations — hence after each individual operation, which is the
`applySeq` of any prefix — the stored size counter again equals the sum of
`len(data)` over all block items: each operation accumulates per-block size
deltas and applies exactly one `update_total` at the end. -/
theorem C1_size_invariant (bsz : Nat) (st : FileState) (h : sizeOk st)
    (ops : List FileOp) : sizeOk (applySeq bsz st ops) := by
  induction ops generalizing st with
  | nil => exact h
  | cons op rest ih => exact ih (applyOp bsz st op) (applyOp_sizeOk bsz st op h)

theorem C1_size_invariant_witness :
    sizeOk ⟨[], 0⟩ ∧
    sizeOk (applySeq 2 ⟨[], 0⟩
      [FileOp.write [1, 2, 3, 4, 5] 1, FileOp.truncate 3, FileOp.write [7, 7] 4]) :=
  ⟨by decide,
   C1_size_invariant 2 ⟨[], 0⟩ (by decide)
     [FileOp.write [1, 2, 3, 4, 5] 1, FileOp.truncate 3, FileOp.write [7, 7] 4]⟩

/-! ## C6: truncate semantics -/

theorem fileContent_cons (k : Nat) (d : Bytes) (rest : Store) :
    fileContent ((k, d) :: rest) = d ++ fileContent rest := by
  simp [fileContent]

theorem fileContent_length (s : Store) : (fileContent s).length = sumLen s := by
  induction s with
  | nil => rfl
  | cons e rest ih =>
    obtain ⟨k, d⟩ := e
    rw [fileContent_cons, sumLen_cons, List.length_append, ih]

theorem truncLoop_content (ns : Int) :
    ∀ l t, fileContent (truncLoop ns l t).1 = (fileContent l).take (max (ns - t) 0).toNat := by
  intro l
  induction l with
  | nil =>
    intro t
    simp [truncLoop, fileContent]
  | cons e rest ih =>
    intro t
    obtain ⟨rng, d⟩ := e
    have hkey : ((d.length : Int) - (t + d.length) + ns) = ns - t := by ring
    by_cases h0 : max ((d.length : Int) - (t + d.length) + ns) 0 = 0
    · have hstep : (truncLoop ns ((rng, d) :: rest) t).1 =
          (truncLoop ns rest (t + d.length)).1 := by
        simp only [truncLoop]
        rw [if_pos h0]
      rw [hstep, ih (t + d.length)]
      rw [hkey] at h0
      have hle : ns - t ≤ 0 := by omega
      have h2 : (max (ns - t) 0).toNat = 0 := by omega
      have h3 : (max (ns - (t + (d.length : Int))) 0).toNat = 0 := by omega
      rw [h2, h3]
      simp
    · by_cases h1 : max ((d.length : Int) - (t + d.length) + ns) 0 < d.length
      · have hstep : (truncLoop ns ((rng, d) :: rest) t).1 =
            (rng, d.take (max ((d.length : Int) - (t + d.length) + ns) 0).toNat) ::
              (truncLoop ns rest (t + d.length)).1 := by
          simp only [truncLoop]
          rw [if_neg h0, if_pos h1]
        rw [hstep, fileContent_cons, fileContent_cons, ih (t + d.length)]
        rw [hkey] at h0 h1
        have hpos : 0 < ns - t := by omega
        have hmax : max (ns - t) 0 = ns - t := by omega
        rw [hmax] at h1 ⊢
        have h3 : (max (ns - (t + (d.length : Int))) 0).toNat = 0 := by omega
        rw [h3]
        rw [List.take_append_eq_append_take]
        have h4 : (ns - t).toNat - d.length = 0 := by omega
        rw [h4]
        simp
        omega
      · have hstep : (truncLoop ns ((rng, d) :: rest) t).1 =
            (rng, d) :: (truncLoop ns rest (t + d.length)).1 := by
          simp only [truncLoop]
          rw [if_neg h0, if_neg h1]
        rw [hstep, fileContent_cons, fileContent_cons, ih (t + d.length)]
        rw [hkey] at h0 h1
        have hge : (d.length : Int) ≤ max (ns - t) 0 := by omega
        have hmax : max (ns - t) 0 = ns - t := by omega
        rw [hmax] at hge
        rw [List.take_append_eq_append_take]
        have h4 : (max (ns - t) 0).toNat - d.length = (max (ns - (t + (d.length : Int))) 0).toNat := by
          omega
        rw [h4, List.take_of_length_le (by omega : d.length ≤ (max (ns - t) 0).toNat)]

theorem truncLoop_noop (ns : Int) :
    ∀ l t, (∀ e ∈ l, e.2 ≠ []) → t + (sumLen l : Int) ≤ ns → truncLoop ns l t = (l, 0) := by
  intro l
  induction l with
  | nil => intro t _ _; rfl
  | cons e rest ih =>
    intro t hne hle
    obtain ⟨rng, d⟩ := e
    have hdpos : 0 < d.length := by
      have := hne (rng, d) (by simp)
      simpa [List.length_pos] using this
    rw [sumLen_cons] at hle
    push_cast at hle
    have hkey : ((d.length : Int) - (t + d.length) + ns) = ns - t := by ring
    have hrest : (0 : Int) ≤ sumLen rest := by positivity
    have h0 : ¬ max ((d.length : Int) - (t + d.length) + ns) 0 = 0 := by
      rw [hkey]; omega
    have h1 : ¬ max ((d.length : Int) - (t + d.length) + ns) 0 < d.length := by
      rw [hkey]; omega
    have hstep : truncLoop ns ((rng, d) :: rest) t =
        ((rng, d) :: (truncLoop ns rest (t + d.length)).1,
         (truncLoop ns rest (t + d.length)).2) := by
      simp only [truncLoop]
      rw [if_neg h0, if_neg h1]
    rw [hstep, ih (t + d.length) (fun x hx => hne x (by simp [hx])) (by omega)]

/-- C6: `xTruncate(newsize)` leaves the stored file content equal to the first
`min(newsize, current_size)` bytes of the prior content in block order (blocks
wholly beyond `newsize` are deleted, the straddling block keeps its first
`to_keep` bytes, earlier blocks are untouched — the net content is the
truncation); and when `newsize` is at least the current file size the
operation changes no block item and leaves the size counter unchanged (the
file is not grown). -/
theorem C6_truncate_semantics (st : FileState) (newsize : Nat) :
    fileContent (xTruncate st newsize).blocks
      = (fileContent st.blocks).take (min newsize (sumLen st.blocks)) ∧
    ((∀ e ∈ st.blocks, e.2 ≠ []) → (sumLen st.blocks : Int) ≤ (newsize : Int) →
      (xTruncate st newsize).blocks = st.blocks ∧
      (xTruncate st newsize).total = st.total) := by
  constructor
  · show fileContent (truncLoop (newsize : Int) st.blocks 0).1 = _
    rw [truncLoop_content (newsize : Int) st.blocks 0]
    have h1 : (max ((newsize : Int) - 0) 0).toNat = newsize := by omega
    rw [h1]
    rcases Nat.le_total newsize (sumLen st.blocks) with h | h
    · rw [min_eq_left h]
    · rw [min_eq_right h, ← fileContent_length,
        List.take_length, List.take_of_length_le (by rw [fileContent_length]; omega)]
  · intro hne hle
    have h := truncLoop_noop (newsize : Int) st.blocks 0 hne (by omega)
    constructor
    · show (truncLoop (newsize : Int) st.blocks 0).1 = st.blocks
      rw [h]
    · show st.total + (truncLoop (newsize : Int) st.blocks 0).2 = st.total
      rw [h]
      simp

theorem C6_truncate_semantics_witness :
    fileContent (xTruncate ⟨[(0, [1, 2]), (1, [3, 4])], 4⟩ 3).blocks
      = (fileContent [(0, [1, 2]), (1, [3, 4])]).take
          (min 3 (sumLen [(0, [1, 2]), (1, [3, 4])])) ∧
    (xTruncate ⟨[(0, [1, 2]), (1, [3, 4])], 4⟩ 7).blocks = [(0, [1, 2]), (1, [3, 4])] ∧
    (xTruncate ⟨[(0, [1, 2]), (1, [3, 4])], 4⟩ 7).total = 4 :=
  ⟨(C6_truncate_semantics ⟨[(0, [1, 2]), (1, [3, 4])], 4⟩ 3).1,
   ((C6_truncate_semantics ⟨[(0, [1, 2]), (1, [3, 4])], 4⟩ 7).2
      (by decide) (by decide)).1,
   ((C6_truncate_semantics ⟨[(0, [1, 2]), (1, [3, 4])], 4⟩ 7).2
      (by decide) (by decide)).2⟩

/-! ## C2: a write followed by a read of the same range returns the data -/

theorem writeLoop_getBlock_untouched (bsz : Nat) (data : Bytes) :
    ∀ tr dataOff acc b, (∀ t ∈ tr, b < t.1) →
      getBlock (writeLoop bsz data tr dataOff acc).1 b = getBlock acc.1 b := by
  intro tr
  induction tr with
  | nil => intro dataOff acc b _; rfl
  | cons t rest ih =>
    intro dataOff acc b hlt
    obtain ⟨block, strt, write⟩ := t
    obtain ⟨s, ds⟩ := acc
    rw [writeLoop_cons, ih _ _ b (fun u hu => hlt u (List.mem_cons_of_mem _ hu))]
    dsimp only
    have hbb : b ≠ block := by
      have := hlt (block, strt, write) (List.mem_cons_self _ _)
      omega
    exact getBlock_putBlock_ne s block b _ hbb

/-- One step of `xRead`, peeling the first block triple. -/
theorem xRead_step (bsz : Nat) (s : Store) (amount offset : Nat) (hb : 0 < bsz)
    (hne : amount ≠ 0) :
    xRead bsz s amount offset =
      ((getBlock s (offset / bsz)).drop (offset % bsz)).take
          (min (bsz - offset % bsz) amount) ++
        xRead bsz s (amount - min (bsz - offset % bsz) amount)
          (offset + min (bsz - offset % bsz) amount) := by
  unfold xRead
  rw [blocks_eq bsz offset amount hb, if_neg hne]
  simp

/-- Slicing the bytes written for a triple at `[start, start+write)` recovers
the data piece that was written. -/
theorem writeData_slice (bsz : Nat) (s : Store) (block strt write : Nat) (data : Bytes)
    (dataOff : Nat) (hlen : ((data.drop dataOff).take write).length = write) :
    ((writeData bsz s block strt write data dataOff).drop strt).take write
      = (data.drop dataOff).take write := by
  have htk : ((data.drop dataOff).take write).take write = (data.drop dataOff).take write :=
    List.take_of_length_le (by omega)
  simp only [writeData]
  split_ifs with hcase
  · have h2 : strt ≤ (getBlock s block ++ zeros (strt - (getBlock s block).length)).length := by
      rw [List.length_append]
      unfold zeros
      rw [List.length_replicate]
      omega
    rw [List.append_assoc, List.drop_append_eq_append_drop]
    have e1 : ((getBlock s block ++ zeros (strt - (getBlock s block).length)).take strt).drop
        strt = [] := by
      rw [List.drop_take]
      simp
    have e2 : strt - ((getBlock s block ++
        zeros (strt - (getBlock s block).length)).take strt).length = 0 := by
      rw [List.length_take]
      omega
    rw [e1, e2, List.drop_zero, List.nil_append, List.take_append_eq_append_take, htk]
    have e4 : write - ((data.drop dataOff).take write).length = 0 := by omega
    rw [e4, List.take_zero, List.append_nil]
  · push_neg at hcase
    obtain ⟨h0, hbsz⟩ := hcase
    subst h0
    rw [List.drop_zero, htk]

theorem writeLoop_readback (bsz : Nat) (hb : 0 < bsz) (data : Bytes) :
    ∀ amount offset acc dataOff, sortedStore acc.1 → dataOff + amount = data.length →
      xRead bsz (writeLoop bsz data (blocks bsz offset amount) dataOff acc).1 amount offset
        = (data.drop dataOff).take amount := by
  intro amount
  induction amount using Nat.strong_induction_on with
  | _ amount ih =>
    intro offset acc dataOff hs hlen
    cases Nat.eq_zero_or_pos amount with
    | inl hz =>
      subst hz
      simp [blocks, blocksAux, writeLoop, xRead]
    | inr hpos =>
      have hne : amount ≠ 0 := Nat.pos_iff_ne_zero.mp hpos
      obtain ⟨s, ds⟩ := acc
      have hcpos : 0 < min (bsz - offset % bsz) amount :=
        consume_pos bsz offset amount hb hpos
      have hbl : blocks bsz offset amount =
          (offset / bsz, offset % bsz, min (bsz - offset % bsz) amount) ::
            blocks bsz (offset + min (bsz - offset % bsz) amount)
              (amount - min (bsz - offset % bsz) amount) := by
        rw [blocks_eq bsz offset amount hb, if_neg hne]
      rw [hbl, writeLoop_cons, xRead_step bsz _ amount offset hb hne]
      set c := min (bsz - offset % bsz) amount with hc
      set W := writeData bsz s (offset / bsz) (offset % bsz) c data dataOff with hWdef
      have hcle : c ≤ amount := by omega
      have hpl : ((data.drop dataOff).take c).length = c := by
        rw [List.length_take, List.length_drop]
        omega
      have hfb : getBlock
          (writeLoop bsz data
            (blocks bsz (offset + c) (amount - c)) (dataOff + c)
            (putBlock s (offset / bsz) W,
             ds + ((W.length : Int) - (getBlock s (offset / bsz)).length))).1
          (offset / bsz) = W := by
        by_cases hr0 : amount - c = 0
        · rw [hr0]
          have hnilb : blocks bsz (offset + c) 0 = [] := rfl
          rw [hnilb]
          show getBlock (putBlock s (offset / bsz) W) (offset / bsz) = W
          exact getBlock_putBlock_self s (offset / bsz) W
        · have hcv : c = bsz - offset % bsz := by omega
          have hall : ∀ t ∈ blocks bsz (offset + c) (amount - c), offset / bsz < t.1 := by
            intro t ht
            have hge := blocks_block_ge bsz hb (amount - c) (offset + c) t ht
            rw [hcv, next_block_div bsz offset hb] at hge
            omega
          rw [writeLoop_getBlock_untouched bsz data _ _ _ _ hall]
          exact getBlock_putBlock_self s (offset / bsz) W
      rw [hfb]
      have hslice := writeData_slice bsz s (offset / bsz) (offset % bsz) c data dataOff hpl
      rw [← hWdef] at hslice
      rw [hslice]
      have hsorted' : sortedStore (putBlock s (offset / bsz) W) := sorted_putBlock s _ W hs
      have hIH := ih (amount - c) (by omega) (offset + c)
        (putBlock s (offset / bsz) W,
         ds + ((W.length : Int) - (getBlock s (offset / bsz)).length))
        (dataOff + c) hsorted' (by omega)
      rw [hIH]
      have hsplit : (data.drop dataOff).take amount = (data.drop dataOff).take (c + (amount - c)) := by
        congr 1
        omega
      rw [hsplit, List.take_add, List.drop_drop]

/-- C2: on any store with uniquely-keyed (sorted) block items, `xWrite(data,
offset)` followed by `xRead(len(data), offset)` on the same handle returns
exactly `data`. -/
theorem C2_write_then_read (bsz : Nat) (hb : 0 < bsz) (st : FileState)
    (hs : sortedStore st.blocks) (data : Bytes) (offset : Nat) :
    xRead bsz (xWrite bsz st data offset).blocks data.length offset = data := by
  unfold xWrite
  by_cases hcond : offset = lockPageOffset + data.length
  · rw [if_pos hcond]
    dsimp only
    obtain ⟨hps, _⟩ := padLoop_sorted_delta bsz (offset / bsz - lockPageOffset / bsz)
      (offset / bsz - 1) (st.blocks, 0) hs
    have := writeLoop_readback bsz hb data data.length offset
      (padLoop bsz (offset / bsz - lockPageOffset / bsz) (offset / bsz - 1) (st.blocks, 0))
      0 hps (by omega)
    rw [this, List.drop_zero]
    exact List.take_length data
  · rw [if_neg hcond]
    dsimp only
    have := writeLoop_readback bsz hb data data.length offset (st.blocks, 0) 0 hs (by omega)
    rw [this, List.drop_zero]
    exact List.take_length data

theorem C2_write_then_read_witness :
    xRead 4 (xWrite 4 ⟨[(0, [9, 9])], 2⟩ [1, 2, 3, 4, 5, 6] 3).blocks 6 3 = [1, 2, 3, 4, 5, 6] :=
  C2_write_then_read 4 (by decide) ⟨[(0, [9, 9])], 2⟩ (by decide) [1, 2, 3, 4, 5, 6] 3

/-! ## C7: the lock-page hole padding in xWrite -/

theorem padLoop_zero (bsz block : Nat) (acc : Store × Int) :
    padLoop bsz 0 block acc = acc := rfl

theorem padLoop_full (bsz n block : Nat) (acc : Store × Int)
    (h : (getBlock acc.1 block).length = bsz) :
    padLoop bsz n block acc = acc := by
  cases n with
  | zero => rfl
  | succ n => simp [padLoop, h]

theorem padLoop_step (bsz n block : Nat) (s : Store) (ds : Int)
    (h : ¬ (getBlock s block).length = bsz) :
    padLoop bsz (n + 1) block (s, ds) =
      padLoop bsz n (block - 1)
        (putBlock s block (getBlock s block ++ zeros (bsz - (getBlock s block).length)),
         ds + (((getBlock s block ++ zeros (bsz - (getBlock s block).length)).length : Int)
           - (getBlock s block).length)) := by
  simp [padLoop, h, putBytes]

theorem padLoop_getBlock_gt (bsz : Nat) :
    ∀ n block acc b, block < b →
      getBlock (padLoop bsz n block acc).1 b = getBlock acc.1 b := by
  intro n
  induction n with
  | zero => intro block acc b _; rfl
  | succ n ih =>
    intro block acc b hlt
    obtain ⟨s, ds⟩ := acc
    by_cases hfull : (getBlock s block).length = bsz
    · rw [padLoop_full bsz _ block (s, ds) hfull]
    · rw [padLoop_step bsz n block s ds hfull]
      rw [ih (block - 1) _ b (by omega)]
      dsimp only
      exact getBlock_putBlock_ne s block b _ (by omega)

theorem padLoop_spec (bsz : Nat) :
    ∀ n block acc, sortedStore acc.1 → n ≤ block + 1 →
      (∀ b2, (getBlock acc.1 b2).length ≤ bsz) →
      ∃ m, block + 1 - n ≤ m ∧ m ≤ block + 1 ∧
        (∀ b2, m ≤ b2 → b2 ≤ block →
          (getBlock acc.1 b2).length < bsz ∧
          getBlock (padLoop bsz n block acc).1 b2 =
            getBlock acc.1 b2 ++ zeros (bsz - (getBlock acc.1 b2).length)) ∧
        (∀ b2, b2 < m → getBlock (padLoop bsz n block acc).1 b2 = getBlock acc.1 b2) ∧
        (m = block + 1 - n ∨ (0 < m ∧ (getBlock acc.1 (m - 1)).length = bsz)) := by
  intro n
  induction n with
  | zero =>
    intro block acc hs hn hlen
    refine ⟨block + 1, by omega, by omega, ?_, ?_, Or.inl (by omega)⟩
    · intro b2 h1 h2; omega
    · intro b2 _; rfl
  | succ n ih =>
    intro block acc hs hn hlen
    obtain ⟨s, ds⟩ := acc
    by_cases hfull : (getBlock s block).length = bsz
    · refine ⟨block + 1, by omega, by omega, ?_, ?_, Or.inr ⟨by omega, ?_⟩⟩
      · intro b2 h1 h2; omega
      · intro b2 _; rw [padLoop_full bsz _ block (s, ds) hfull]
      · show (getBlock s (block + 1 - 1)).length = bsz
        simpa using hfull
    · have hwlen : (getBlock s block).length < bsz := lt_of_le_of_ne (hlen block) hfull
      rw [padLoop_step bsz n block s ds hfull]
      set w : Bytes := getBlock s block ++ zeros (bsz - (getBlock s block).length) with hwdef
      have hwfull : w.length = bsz := by
        rw [hwdef, List.length_append]
        unfold zeros
        rw [List.length_replicate]
        omega
      by_cases hblock0 : block = 0
      · subst hblock0
        have hn0 : n = 0 := by omega
        subst hn0
        refine ⟨0, by omega, by omega, ?_, ?_, Or.inl (by omega)⟩
        · intro b2 h1 h2
          have hb2 : b2 = 0 := by omega
          subst hb2
          refine ⟨hwlen, ?_⟩
          rw [padLoop_zero]
          dsimp only
          rw [getBlock_putBlock_self]
        · intro b2 hb2
          exact absurd hb2 (Nat.not_lt_zero b2)
      · have hs' : sortedStore (putBlock s block w) := sorted_putBlock s block w hs
        have hlen' : ∀ b2, (getBlock (putBlock s block w) b2).length ≤ bsz := by
          intro b2
          by_cases hx : b2 = block
          · subst hx
            rw [getBlock_putBlock_self]
            omega
          · rw [getBlock_putBlock_ne s block b2 w hx]
            exact hlen b2
        obtain ⟨m, hm1, hm2, hpad, hunch, hstop⟩ := ih (block - 1)
          (putBlock s block w, ds + ((w.length : Int) - (getBlock s block).length)) hs'
          (by omega) hlen'
        refine ⟨m, by omega, by omega, ?_, ?_, ?_⟩
        · intro b2 h1 h2
          by_cases hx : b2 = block
          · subst hx
            refine ⟨hwlen, ?_⟩
            rw [padLoop_getBlock_gt bsz n (b2 - 1) _ b2 (by omega)]
            dsimp only
            rw [getBlock_putBlock_self]
          · have hb2le : b2 ≤ block - 1 := by omega
            obtain ⟨hshort, hval⟩ := hpad b2 h1 hb2le
            rw [getBlock_putBlock_ne s block b2 w hx] at hshort hval
            exact ⟨hshort, hval⟩
        · intro b2 hb2
          have hx : b2 ≠ block := by omega
          have := hunch b2 hb2
          rw [getBlock_putBlock_ne s block b2 w hx] at this
          exact this
        · rcases hstop with h | ⟨hpos, hfull'⟩
          · left; omega
          · right
            refine ⟨hpos, ?_⟩
            rw [getBlock_putBlock_ne s block (m - 1) w (by omega)] at hfull'
            exact hfull'

/-- C7: when `offset = 1073741824 + len(data)` (the first write crossing the
lock-page hole), `xWrite` first pads blocks downward from
`first_data_block - 1` to the block containing the lock-page offset: there is
a stopping block `m` such that every block in `[m, first_data_block)` was
shorter than `block_size` and is now its old bytes zero-padded to exactly
`block_size`, every block below `m` is untouched, and the loop stopped either
at the lock-page block or just above an already-full block.  For any other
offset, no block below the first data block is touched. -/
theorem C7_lock_page_padding (bsz : Nat) (hb : 0 < bsz) (st : FileState)
    (hs : sortedStore st.blocks) (hlen : ∀ b, (getBlock st.blocks b).length ≤ bsz)
    (data : Bytes) (offset : Nat) :
    (offset = lockPageOffset + data.length →
      ∃ m, lockPageOffset / bsz ≤ m ∧ m ≤ offset / bsz ∧
        (∀ b, m ≤ b → b < offset / bsz →
          (getBlock st.blocks b).length < bsz ∧
          getBlock (xWrite bsz st data offset).blocks b
            = getBlock st.blocks b ++ zeros (bsz - (getBlock st.blocks b).length)) ∧
        (∀ b, b < m →
          getBlock (xWrite bsz st data offset).blocks b = getBlock st.blocks b) ∧
        (m = lockPageOffset / bsz ∨
          (0 < m ∧ (getBlock st.blocks (m - 1)).length = bsz))) ∧
    (offset ≠ lockPageOffset + data.length →
      ∀ b, b < offset / bsz →
        getBlock (xWrite bsz st data offset).blocks b = getBlock st.blocks b) := by
  have hwuntouched : ∀ (acc : Store × Int) b, b < offset / bsz →
      getBlock (writeLoop bsz data (blocks bsz offset data.length) 0 acc).1 b
        = getBlock acc.1 b := by
    intro acc b hblt
    apply writeLoop_getBlock_untouched
    intro t ht
    have := blocks_block_ge bsz hb data.length offset t ht
    omega
  constructor
  · intro hcond
    set dfb := offset / bsz with hdfb
    set lpb := lockPageOffset / bsz with hlpb
    have hlpb_le : lpb ≤ dfb := by
      rw [hdfb, hlpb]
      exact Nat.div_le_div_right (by omega)
    clear_value dfb lpb
    by_cases hn0 : dfb - lpb = 0
    · refine ⟨dfb, by omega, le_refl _, ?_, ?_, Or.inl (by omega)⟩
      · intro b h1 h2; omega
      · intro b hb2
        show getBlock (xWrite bsz st data offset).blocks b = getBlock st.blocks b
        unfold xWrite
        rw [if_pos hcond]
        dsimp only
        rw [← hdfb, ← hlpb, hn0, padLoop_zero]
        exact hwuntouched (st.blocks, 0) b hb2
    · obtain ⟨m, hm1, hm2, hpad, hunch, hstop⟩ := padLoop_spec bsz
        (dfb - lpb) (dfb - 1) (st.blocks, 0) hs (by omega) hlen
      have hdfb1 : 0 < dfb := by omega
      refine ⟨m, by omega, by omega, ?_, ?_, ?_⟩
      · intro b h1 h2
        obtain ⟨hshort, hval⟩ := hpad b h1 (by omega)
        dsimp only at hshort hval
        refine ⟨hshort, ?_⟩
        unfold xWrite
        rw [if_pos hcond]
        dsimp only
        rw [hwuntouched _ b h2]
        rw [← hdfb, ← hlpb]
        exact hval
      · intro b hb2
        have hval := hunch b hb2
        dsimp only at hval
        unfold xWrite
        rw [if_pos hcond]
        dsimp only
        rw [hwuntouched _ b (by omega)]
        rw [← hdfb, ← hlpb]
        exact hval
      · rcases hstop with h | h
        · left; omega
        · right; exact h
  · intro hcond b hblt
    unfold xWrite
    rw [if_neg hcond]
    dsimp only
    exact hwuntouched (st.blocks, 0) b hblt

theorem C7_lock_page_padding_witness :
    ∃ m, lockPageOffset / 2 ≤ m ∧ m ≤ 1073741826 / 2 ∧
      (∀ b, m ≤ b → b < 1073741826 / 2 →
        (getBlock [(536870912, [7])] b).length < 2 ∧
        getBlock (xWrite 2 ⟨[(536870912, [7])], 1⟩ [5, 5] 1073741826).blocks b
          = getBlock [(536870912, [7])] b ++
              zeros (2 - (getBlock [(536870912, [7])] b).length)) ∧
      (∀ b, b < m →
        getBlock (xWrite 2 ⟨[(536870912, [7])], 1⟩ [5, 5] 1073741826).blocks b
          = getBlock [(536870912, [7])] b) ∧
      (m = lockPageOffset / 2 ∨
        (0 < m ∧ (getBlock [(536870912, [7])] (m - 1)).length = 2)) :=
  (C7_lock_page_padding 2 (by decide) ⟨[(536870912, [7])], 1⟩ (by decide)
      (by
        intro b
        simp only [getBlock]
        split_ifs <;> simp)
      [5, 5] 1073741826).1 (by decide)

/-! ## C9: xRead semantics

The rechunker pipeline of `deserialize_iter` (`up_to_iter`/`block_bytes_iter`)
is embedded by its effect on the concatenated byte stream: repeatedly emit
`block_size` bytes until the stream is exhausted. -/

def chunkListAux : Nat → Nat → Bytes → List Bytes
  | 0, _, _ => []
  | fuel + 1, bsz, s =>
    if s = [] then [] else s.take bsz :: chunkListAux fuel bsz (s.drop bsz)

/-- Repack a byte stream into `block_size`-sized chunks (the last chunk may be
shorter; no empty chunk is emitted).  Fuel `s.length` suffices for
`0 < block_size`. -/
def chunkList (bsz : Nat) (s : Bytes) : List Bytes := chunkListAux s.length bsz s

theorem chunkListAux_fuel_irrel (bsz : Nat) (hb : 0 < bsz) :
    ∀ f1 f2 s, s.length ≤ f1 → s.length ≤ f2 →
      chunkListAux f1 bsz s = chunkListAux f2 bsz s := by
  intro f1
  induction f1 with
  | zero =>
    intro f2 s h1 _
    have hz : s = [] := List.eq_nil_of_length_eq_zero (by omega)
    subst hz
    cases f2 with
    | zero => rfl
    | succ g => simp [chunkListAux]
  | succ f ih =>
    intro f2 s h1 h2
    by_cases hz : s = []
    · subst hz
      cases f2 with
      | zero => rfl
      | succ g => simp [chunkListAux]
    · have hpos : 0 < s.length := List.length_pos.mpr hz
      cases f2 with
      | zero => omega
      | succ g =>
        simp only [chunkListAux, if_neg hz]
        have hd : (s.drop bsz).length ≤ f := by
          rw [List.length_drop]; omega
        have hd2 : (s.drop bsz).length ≤ g := by
          rw [List.length_drop]; omega
        exact congrArg _ (ih g _ hd hd2)

theorem chunkList_eq (bsz : Nat) (hb : 0 < bsz) (s : Bytes) :
    chunkList bsz s =
      if s = [] then [] else s.take bsz :: chunkList bsz (s.drop bsz) := by
  by_cases hz : s = []
  · subst hz; rfl
  · have hpos : 0 < s.length := List.length_pos.mpr hz
    obtain ⟨L, hL⟩ : ∃ L, s.length = L + 1 := ⟨s.length - 1, by omega⟩
    show chunkListAux s.length bsz s = _
    rw [hL]
    simp only [chunkListAux, if_neg hz]
    congr 1
    show chunkListAux L bsz (s.drop bsz) = chunkList bsz (s.drop bsz)
    unfold chunkList
    apply chunkListAux_fuel_irrel bsz hb
    · rw [List.length_drop]; omega
    · exact Nat.le_refl _

theorem chunkList_flatten_aux (bsz : Nat) (hb : 0 < bsz) :
    ∀ n (s : Bytes), s.length = n → (chunkList bsz s).flatten = s := by
  intro n
  induction n using Nat.strong_induction_on with
  | _ n ih =>
    intro s hsn
    subst hsn
    rw [chunkList_eq bsz hb s]
    by_cases hz : s = []
    · subst hz; simp
    · rw [if_neg hz]
      have hpos : 0 < s.length := List.length_pos.mpr hz
      rw [List.flatten_cons, ih (s.drop bsz).length (by rw [List.length_drop]; omega)
        (s.drop bsz) rfl]
      exact List.take_append_drop bsz s

theorem chunkList_flatten (bsz : Nat) (hb : 0 < bsz) (s : Bytes) :
    (chunkList bsz s).flatten = s :=
  chunkList_flatten_aux bsz hb s.length s rfl

theorem getBlock_enumFrom (l : List Bytes) :
    ∀ n b, getBlock (List.enumFrom n l) b = if n ≤ b then l.getD (b - n) [] else [] := by
  induction l with
  | nil =>
    intro n b
    simp [List.enumFrom, getBlock, List.getD]
  | cons d rest ih =>
    intro n b
    rw [List.enumFrom_cons]
    by_cases hnb : n = b
    · subst hnb
      rw [getBlock_cons_eq]
      simp
    · rw [getBlock_cons_ne _ _ hnb, ih (n + 1) b]
      by_cases hle : n + 1 ≤ b
      · rw [if_pos hle, if_pos (by omega)]
        obtain ⟨k, hk⟩ : ∃ k, b - n = k + 1 := ⟨b - n - 1, by omega⟩
        rw [hk]
        have hk2 : b - (n + 1) = k := by omega
        rw [hk2, List.getD_cons_succ]
      · rw [if_neg hle, if_neg (by omega)]

/-- The store laid out by block number for a contiguous file with content `c`:
block `b` holds bytes `[b*block_size, (b+1)*block_size)` of `c`. -/
def canonicalStore (bsz : Nat) (c : Bytes) : Store := (chunkList bsz c).enum

theorem chunkList_getD (bsz : Nat) (hb : 0 < bsz) :
    ∀ b c, (chunkList bsz c).getD b [] = (c.drop (b * bsz)).take bsz := by
  intro b
  induction b with
  | zero =>
    intro c
    rw [chunkList_eq bsz hb c]
    by_cases hz : c = []
    · subst hz; simp [List.getD]
    · rw [if_neg hz]
      simp
  | succ b ih =>
    intro c
    rw [chunkList_eq bsz hb c]
    by_cases hz : c = []
    · subst hz; simp [List.getD]
    · rw [if_neg hz, List.getD_cons_succ, ih (c.drop bsz), List.drop_drop]
      congr 2
      ring

theorem getBlock_canonicalStore (bsz : Nat) (hb : 0 < bsz) (c : Bytes) (b : Nat) :
    getBlock (canonicalStore bsz c) b = (c.drop (b * bsz)).take bsz := by
  unfold canonicalStore
  unfold List.enum
  rw [getBlock_enumFrom (chunkList bsz c) 0 b, if_pos (Nat.zero_le b), Nat.sub_zero]
  exact chunkList_getD bsz hb b c

theorem xRead_canonical (bsz : Nat) (hb : 0 < bsz) :
    ∀ amount offset c,
      xRead bsz (canonicalStore bsz c) amount offset = (c.drop offset).take amount := by
  intro amount
  induction amount using Nat.strong_induction_on with
  | _ amount ih =>
    intro offset c
    cases Nat.eq_zero_or_pos amount with
    | inl hz => subst hz; simp [xRead, blocks, blocksAux]
    | inr hpos =>
      have hne : amount ≠ 0 := Nat.pos_iff_ne_zero.mp hpos
      have hcpos : 0 < min (bsz - offset % bsz) amount :=
        consume_pos bsz offset amount hb hpos
      rw [xRead_step bsz _ amount offset hb hne]
      rw [getBlock_canonicalStore bsz hb c (offset / bsz)]
      rw [ih (amount - min (bsz - offset % bsz) amount) (by omega)
        (offset + min (bsz - offset % bsz) amount) c]
      rw [List.drop_take]
      rw [List.drop_drop]
      have hoff : offset / bsz * bsz + offset % bsz = offset := by
        rw [Nat.mul_comm (offset / bsz) bsz]
        exact Nat.div_add_mod offset bsz
      rw [hoff]
      rw [List.take_take]
      have hmin : min (bsz - offset % bsz) amount ⊓ (bsz - offset % bsz)
          = min (bsz - offset % bsz) amount := by omega
      rw [hmin]
      have hsplit : (c.drop offset).take amount
          = (c.drop offset).take (min (bsz - offset % bsz) amount +
              (amount - min (bsz - offset % bsz) amount)) := by
        congr 1
        omega
      rw [hsplit, List.take_add, List.drop_drop]

theorem xRead_length_le (bsz : Nat) (hb : 0 < bsz) :
    ∀ amount offset s, (xRead bsz s amount offset).length ≤ amount := by
  intro amount
  induction amount using Nat.strong_induction_on with
  | _ amount ih =>
    intro offset s
    cases Nat.eq_zero_or_pos amount with
    | inl hz => subst hz; simp [xRead, blocks, blocksAux]
    | inr hpos =>
      have hne : amount ≠ 0 := Nat.pos_iff_ne_zero.mp hpos
      have hcpos : 0 < min (bsz - offset % bsz) amount :=
        consume_pos bsz offset amount hb hpos
      rw [xRead_step bsz _ amount offset hb hne, List.length_append]
      have h1 : (((getBlock s (offset / bsz)).drop (offset % bsz)).take
          (min (bsz - offset % bsz) amount)).length ≤ min (bsz - offset % bsz) amount := by
        rw [List.length_take]
        omega
      have h2 := ih (amount - min (bsz - offset % bsz) amount) (by omega)
        (offset + min (bsz - offset % bsz) amount) s
      omega

/-- C9: `xRead(amount, offset)` returns at most `amount` bytes on any store;
on the store of a contiguous file with content `c` (all blocks full except a
possibly-shorter final block) it returns exactly the byte slice
`c[offset : offset+amount]`, so a read past end-of-file returns fewer bytes
than requested (and no error is possible). -/
theorem C9_read_semantics (bsz : Nat) (hb : 0 < bsz) (s : Store) (amount offset : Nat) :
    (xRead bsz s amount offset).length ≤ amount ∧
    (∀ c, s = canonicalStore bsz c →
      xRead bsz s amount offset = (c.drop offset).take amount ∧
      (0 < amount → c.length < offset + amount →
        (xRead bsz s amount offset).length < amount)) := by
  refine ⟨xRead_length_le bsz hb amount offset s, ?_⟩
  intro c hc
  subst hc
  have heq := xRead_canonical bsz hb amount offset c
  refine ⟨heq, ?_⟩
  intro hpos hshort
  rw [heq, List.length_take, List.length_drop]
  omega

theorem C9_read_semantics_witness :
    (xRead 2 (canonicalStore 2 [1, 2, 3]) 5 1).length ≤ 5 ∧
    xRead 2 (canonicalStore 2 [1, 2, 3]) 5 1 = ([1, 2, 3].drop 1).take 5 ∧
    (xRead 2 (canonicalStore 2 [1, 2, 3]) 5 1).length < 5 :=
  ⟨(C9_read_semantics 2 (by decide) (canonicalStore 2 [1, 2, 3]) 5 1).1,
   (((C9_read_semantics 2 (by decide) (canonicalStore 2 [1, 2, 3]) 5 1).2
      [1, 2, 3] rfl).1),
   (((C9_read_semantics 2 (by decide) (canonicalStore 2 [1, 2, 3]) 5 1).2
      [1, 2, 3] rfl).2 (by decide) (by decide))⟩

/-! ## The lock manager (C3, C4, C5)

The `LK/<path>` item.  An absent item behaves like one with all attributes
absent (DynamoDB conditions test attributes; updates create the item).
Client ids are modelled as naturals.  Along with the new item state and the
handle's in-memory `_attained_log_level`, the models return the number of
conditional write requests issued and whether `BusyError` was raised
(`xLock`) or a non-busy store error propagated (`xUnlock.ok = false`). -/

structure LockItem where
  level : Option Nat
  owner : Option Nat
  count : Option Int
deriving DecidableEq

def SQLITE_LOCK_NONE : Nat := 0
def SQLITE_LOCK_SHARED : Nat := 1
def SQLITE_LOCK_RESERVED : Nat := 2
def SQLITE_LOCK_PENDING : Nat := 3
def SQLITE_LOCK_EXCLUSIVE : Nat := 4

structure LockResult where
  item : LockItem
  attained : Nat
  calls : Nat
  busy : Bool
deriving DecidableEq

/-- The final upgrade UpdateItem of `xLock` for `RESERVED`/`EXCLUSIVE`:
`SET level = target, owner = client_id` under condition `owner = client_id`
(for `RESERVED`) or `owner = client_id AND count = 1` (for `EXCLUSIVE`).
Condition failure raises `Busy` and leaves item and `attained` unchanged. -/
def xLockFinal (item : LockItem) (attained cid target calls : Nat) : LockResult :=
  if target = SQLITE_LOCK_RESERVED then
    if item.owner = some cid then
      ⟨{ item with level := some target, owner := some cid }, target, calls + 1, false⟩
    else ⟨item, attained, calls + 1, true⟩
  else
    if item.owner = some cid ∧ item.count = some 1 then
      ⟨{ item with level := some target, owner := some cid }, target, calls + 1, false⟩
    else ⟨item, attained, calls + 1, true⟩

/-- `DDBVFSFile.xLock(level)`. -/
def xLock (item : LockItem) (attained cid target : Nat) : LockResult :=
  if target = attained then ⟨item, attained, 0, false⟩
  else if target = SQLITE_LOCK_SHARED then
    if item.level = none ∨ item.level = some SQLITE_LOCK_RESERVED then
      ⟨{ item with count := some (item.count.getD 0 + 1) }, SQLITE_LOCK_SHARED, 1, false⟩
    else ⟨item, attained, 1, true⟩
  else
    if attained ≠ SQLITE_LOCK_PENDING then
      if item.owner = none ∨ item.owner = some cid then
        xLockFinal { item with level := some SQLITE_LOCK_PENDING, owner := some cid }
          SQLITE_LOCK_PENDING cid target 1
      else ⟨item, attained, 1, true⟩
    else xLockFinal item attained cid target 0

structure UnlockResult where
  item : LockItem
  attained : Nat
  ok : Bool
deriving DecidableEq

/-- `DDBVFSFile.xUnlock(level)`.  Note: on the writer-to-NONE path the Python
source performs the UpdateItem but never assigns `_attained_log_level`. -/
def xUnlock (item : LockItem) (attained cid target : Nat) : UnlockResult :=
  if target = attained then ⟨item, attained, true⟩
  else if SQLITE_LOCK_RESERVED ≤ target then
    if item.owner = some cid then ⟨⟨some target, some cid, some 1⟩, target, true⟩
    else ⟨item, attained, false⟩
  else if target = SQLITE_LOCK_SHARED then
    if item.owner = some cid then ⟨⟨none, none, item.count⟩, target, true⟩
    else ⟨item, attained, false⟩
  else
    if SQLITE_LOCK_SHARED < attained then
      if item.owner = some cid then
        match item.count with
        | some c => ⟨⟨none, none, some (c - 1)⟩, attained, true⟩
        | none => ⟨item, attained, false⟩
      else ⟨item, attained, false⟩
    else
      match item.count with
      | some c =>
        ⟨{ item with count := some (c - (if 0 < attained then 1 else 0)) }, target, true⟩
      | none => ⟨item, attained, false⟩

/-- C3 (code behavior at the failing input): with `attained = EXCLUSIVE`,
`xUnlock(NONE)` performs the UpdateItem
`SET count = count - 1 REMOVE level, owner` (count drops to 0, level and
owner are removed), but the in-memory attained level is left at `EXCLUSIVE`
instead of being set to `NONE`: the assignment `_attained_log_level = level`
is missing from the writer branch of `xUnlock` in the source. -/
theorem C3_unlock_none_keeps_stale_attained :
    xUnlock ⟨some 4, some 7, some 1⟩ 4 7 0 = ⟨⟨none, none, some 0⟩, 4, true⟩ ∧
    (xUnlock ⟨some 4, some 7, some 1⟩ 4 7 0).attained ≠ SQLITE_LOCK_NONE := by
  decide

/-- C4: `xLock(SHARED)` (with `SHARED` not already attained) issues exactly
one conditional UpdateItem `SET count = if_not_exists(count, 0) + 1` under
condition `attribute_not_exists(level) OR level = RESERVED`; on condition
failure it raises `Busy` leaving the item and `attained` unchanged, and on
success only `count` changes and `attained` becomes `SHARED`. -/
theorem C4_lock_shared (item : LockItem) (attained cid : Nat)
    (h : attained ≠ SQLITE_LOCK_SHARED) :
    ((item.level = none ∨ item.level = some SQLITE_LOCK_RESERVED) →
      xLock item attained cid SQLITE_LOCK_SHARED =
        ⟨{ item with count := some (item.count.getD 0 + 1) },
         SQLITE_LOCK_SHARED, 1, false⟩) ∧
    (¬(item.level = none ∨ item.level = some SQLITE_LOCK_RESERVED) →
      xLock item attained cid SQLITE_LOCK_SHARED = ⟨item, attained, 1, true⟩) := by
  have hne : ¬ SQLITE_LOCK_SHARED = attained := fun hh => h hh.symm
  constructor
  · intro hcond
    unfold xLock
    rw [if_neg hne, if_pos rfl, if_pos hcond]
  · intro hcond
    unfold xLock
    rw [if_neg hne, if_pos rfl, if_neg hcond]

theorem C4_lock_shared_witness :
    xLock ⟨none, none, some 2⟩ 0 5 SQLITE_LOCK_SHARED =
      ⟨⟨none, none, some 3⟩, SQLITE_LOCK_SHARED, 1, false⟩ ∧
    xLock ⟨some 3, some 9, some 1⟩ 0 5 SQLITE_LOCK_SHARED =
      ⟨⟨some 3, some 9, some 1⟩, 0, 1, true⟩ :=
  ⟨(C4_lock_shared ⟨none, none, some 2⟩ 0 5 (by decide)).1 (by decide),
   (C4_lock_shared ⟨some 3, some 9, some 1⟩ 0 5 (by decide)).2 (by decide)⟩

/-- C5: `xLock(EXCLUSIVE)` on a handle that has already reached `PENDING`
issues the single final conditional UpdateItem `SET level = EXCLUSIVE,
owner = client_id` under condition `owner = client_id AND count = 1`; on
condition failure it raises `Busy` and the handle remains at `PENDING` with
the item unchanged (so the caller may retry). -/
theorem C5_lock_exclusive_from_pending (item : LockItem) (cid : Nat) :
    ((item.owner = some cid ∧ item.count = some 1) →
      xLock item SQLITE_LOCK_PENDING cid SQLITE_LOCK_EXCLUSIVE =
        ⟨{ item with level := some SQLITE_LOCK_EXCLUSIVE, owner := some cid },
         SQLITE_LOCK_EXCLUSIVE, 1, false⟩) ∧
    (¬(item.owner = some cid ∧ item.count = some 1) →
      xLock item SQLITE_LOCK_PENDING cid SQLITE_LOCK_EXCLUSIVE =
        ⟨item, SQLITE_LOCK_PENDING, 1, true⟩) := by
  constructor
  · intro hcond
    unfold xLock
    rw [if_neg (by decide), if_neg (by decide), if_neg (by decide)]
    unfold xLockFinal
    rw [if_neg (by decide), if_pos hcond]
  · intro hcond
    unfold xLock
    rw [if_neg (by decide), if_neg (by decide), if_neg (by decide)]
    unfold xLockFinal
    rw [if_neg (by decide), if_neg hcond]

theorem C5_lock_exclusive_from_pending_witness :
    xLock ⟨some 3, some 5, some 1⟩ SQLITE_LOCK_PENDING 5 SQLITE_LOCK_EXCLUSIVE =
      ⟨⟨some 4, some 5, some 1⟩, SQLITE_LOCK_EXCLUSIVE, 1, false⟩ ∧
    xLock ⟨some 3, some 5, some 2⟩ SQLITE_LOCK_PENDING 5 SQLITE_LOCK_EXCLUSIVE =
      ⟨⟨some 3, some 5, some 2⟩, SQLITE_LOCK_PENDING, 1, true⟩ :=
  ⟨(C5_lock_exclusive_from_pending ⟨some 3, some 5, some 1⟩ 5).1 (by decide),
   (C5_lock_exclusive_from_pending ⟨some 3, some 5, some 2⟩ 5).2 (by decide)⟩

/-! ## C8: deserialize followed by serialize round-trips

Sort keys are the 10-digit zero-padded decimal strings `f-string {block:010d}`,
modelled as their lists of decimal digits.  The table partition is kept in
ascending lexicographic key order (DynamoDB sort order on the string keys). -/

def digitsAux10 : Nat → Nat → List Nat
  | 0, _ => []
  | fuel + 1, n => if n = 0 then [] else n % 10 :: digitsAux10 fuel (n / 10)

/-- Little-endian decimal digits of `n` (`[]` for 0); fuel `n` suffices. -/
def digitsLE (n : Nat) : List Nat := digitsAux10 n n

theorem digitsAux10_fuel_irrel :
    ∀ f1 f2 n, n ≤ f1 → n ≤ f2 → digitsAux10 f1 n = digitsAux10 f2 n := by
  intro f1
  induction f1 with
  | zero =>
    intro f2 n h1 _
    have hz : n = 0 := by omega
    subst hz
    cases f2 with
    | zero => rfl
    | succ g => simp [digitsAux10]
  | succ f ih =>
    intro f2 n h1 h2
    by_cases hz : n = 0
    · subst hz
      cases f2 with
      | zero => rfl
      | succ g => simp [digitsAux10]
    · cases f2 with
      | zero => omega
      | succ g =>
        simp only [digitsAux10, if_neg hz]
        have hd : n / 10 < n := Nat.div_lt_self (by omega) (by omega)
        exact congrArg _ (ih g (n / 10) (by omega) (by omega))

theorem digitsLE_eq (n : Nat) :
    digitsLE n = if n = 0 then [] else n % 10 :: digitsLE (n / 10) := by
  by_cases hz : n = 0
  · subst hz; rfl
  · rw [if_neg hz]
    show digitsAux10 n n = _
    obtain ⟨m, hm⟩ : ∃ m, n = m + 1 := ⟨n - 1, by omega⟩
    rw [hm]
    simp only [digitsAux10, if_neg (hm ▸ hz)]
    have hd : (m + 1) / 10 < m + 1 := Nat.div_lt_self (by omega) (by omega)
    exact congrArg _ (digitsAux10_fuel_irrel m ((m + 1) / 10) ((m + 1) / 10)
      (by omega) (Nat.le_refl _))

theorem digitsLE_lt10 : ∀ n, ∀ d ∈ digitsLE n, d < 10 := by
  intro n
  induction n using Nat.strong_induction_on with
  | _ n ih =>
    intro d hd
    rw [digitsLE_eq n] at hd
    by_cases hz : n = 0
    · subst hz; simp at hd
    · rw [if_neg hz] at hd
      rcases List.mem_cons.mp hd with h | h
      · subst h; exact Nat.mod_lt _ (by omega)
      · exact ih (n / 10) (Nat.div_lt_self (by omega) (by omega)) d h

theorem digitsLE_len_le : ∀ k n, n < 10 ^ k → (digitsLE n).length ≤ k := by
  intro k
  induction k with
  | zero =>
    intro n hn
    have hz : n = 0 := by simpa using hn
    subst hz
    simp [digitsLE, digitsAux10]
  | succ k ih =>
    intro n hn
    rw [digitsLE_eq n]
    by_cases hz : n = 0
    · simp [hz]
    · rw [if_neg hz]
      simp only [List.length_cons]
      have : n / 10 < 10 ^ k := by
        rw [Nat.div_lt_iff_lt_mul (by omega : 0 < 10)]
        calc n < 10 ^ (k + 1) := hn
        _ = 10 ^ k * 10 := by rw [pow_succ]
      exact Nat.succ_le_succ (ih (n / 10) this)

/-- Value of a big-endian digit list. -/
def valD (ds : List Nat) : Nat := ds.foldl (fun a d => 10 * a + d) 0

theorem valD_gen : ∀ (ds : List Nat) (a : Nat),
    ds.foldl (fun a d => 10 * a + d) a = a * 10 ^ ds.length + valD ds := by
  intro ds
  induction ds with
  | nil => intro a; simp [valD]
  | cons d ds ih =>
    intro a
    show ds.foldl (fun a d => 10 * a + d) (10 * a + d) = _
    rw [ih (10 * a + d)]
    have hv : valD (d :: ds) = ds.foldl (fun a d => 10 * a + d) (10 * 0 + d) := rfl
    rw [hv, ih (10 * 0 + d)]
    simp only [List.length_cons]
    rw [pow_succ]
    ring

theorem valD_cons (d : Nat) (ds : List Nat) :
    valD (d :: ds) = d * 10 ^ ds.length + valD ds := by
  have hv : valD (d :: ds) = ds.foldl (fun a d => 10 * a + d) (10 * 0 + d) := rfl
  rw [hv, valD_gen ds (10 * 0 + d)]
  ring

theorem valD_lt : ∀ ds : List Nat, (∀ d ∈ ds, d < 10) → valD ds < 10 ^ ds.length := by
  intro ds
  induction ds with
  | nil => intro _; simp [valD]
  | cons d ds ih =>
    intro hb
    rw [valD_cons]
    have hd : d ≤ 9 := by
      have := hb d (by simp)
      omega
    have hv : valD ds < 10 ^ ds.length := ih (fun x hx => hb x (by simp [hx]))
    have hm : d * 10 ^ ds.length ≤ 9 * 10 ^ ds.length :=
      Nat.mul_le_mul_right _ hd
    simp only [List.length_cons]
    rw [pow_succ]
    omega

theorem valD_append_singleton (A : List Nat) (d : Nat) :
    valD (A ++ [d]) = 10 * valD A + d := by
  unfold valD
  rw [List.foldl_append]
  rfl

theorem valD_reverse_digitsLE : ∀ n, valD (digitsLE n).reverse = n := by
  intro n
  induction n using Nat.strong_induction_on with
  | _ n ih =>
    rw [digitsLE_eq n]
    by_cases hz : n = 0
    · subst hz; simp [valD]
    · rw [if_neg hz, List.reverse_cons, valD_append_singleton,
        ih (n / 10) (Nat.div_lt_self (by omega) (by omega))]
      omega

/-- Big-endian decimal digits of `n`. -/
def digitsBE (n : Nat) : List Nat := (digitsLE n).reverse

/-- The sort key `f-string {n:010d}`: decimal digits left-padded with zeros to
10 places. -/
def fmt10 (n : Nat) : List Nat :=
  List.replicate (10 - (digitsBE n).length) 0 ++ digitsBE n

theorem valD_replicate_zero (m : Nat) (ds : List Nat) :
    valD (List.replicate m 0 ++ ds) = valD ds := by
  unfold valD
  rw [List.foldl_append]
  have h0 : List.foldl (fun a d => 10 * a + d) 0 (List.replicate m 0) = 0 := by
    induction m with
    | zero => rfl
    | succ m ihm =>
      rw [List.replicate_succ]
      show List.foldl (fun a d => 10 * a + d) (10 * 0 + 0) (List.replicate m 0) = 0
      simpa using ihm
  rw [h0]

theorem fmt10_val (n : Nat) : valD (fmt10 n) = n := by
  unfold fmt10
  rw [valD_replicate_zero]
  exact valD_reverse_digitsLE n

theorem fmt10_length (n : Nat) (hn : n < 10 ^ 10) : (fmt10 n).length = 10 := by
  unfold fmt10 digitsBE
  rw [List.length_append, List.length_replicate, List.length_reverse]
  have := digitsLE_len_le 10 n hn
  omega

theorem fmt10_lt10 (n : Nat) : ∀ d ∈ fmt10 n, d < 10 := by
  intro d hd
  unfold fmt10 at hd
  rcases List.mem_append.mp hd with h | h
  · have := List.eq_of_mem_replicate h
    omega
  · exact digitsLE_lt10 n d (List.mem_reverse.mp h)

/-- Lexicographic order on digit-list keys (DynamoDB string sort order;
a strict prefix sorts first). -/
def keyLt : List Nat → List Nat → Bool
  | [], [] => false
  | [], _ :: _ => true
  | _ :: _, [] => false
  | a :: as, b :: bs => if a < b then true else if a = b then keyLt as bs else false

theorem keyLt_irrefl : ∀ a, keyLt a a = false := by
  intro a
  induction a with
  | nil => rfl
  | cons x xs ih => simp [keyLt, ih]

theorem keyLt_asymm : ∀ a b, keyLt a b = true → keyLt b a = false := by
  intro a
  induction a with
  | nil =>
    intro b hab
    cases b with
    | nil => simp [keyLt] at hab
    | cons y ys => rfl
  | cons x xs ih =>
    intro b hab
    cases b with
    | nil => simp [keyLt] at hab
    | cons y ys =>
      simp only [keyLt] at hab ⊢
      by_cases h1 : x < y
      · rw [if_neg (by omega : ¬ y < x), if_neg (by omega : ¬ y = x)]
      · rw [if_neg h1] at hab
        by_cases h2 : x = y
        · subst h2
          rw [if_pos rfl] at hab
          rw [if_neg h1, if_pos rfl]
          exact ih ys hab
        · rw [if_neg h2] at hab
          exact absurd hab (by simp)

theorem keyLt_of_val_lt :
    ∀ ds es : List Nat, ds.length = es.length →
      (∀ d ∈ ds, d < 10) → (∀ d ∈ es, d < 10) →
      valD ds < valD es → keyLt ds es = true := by
  intro ds
  induction ds with
  | nil =>
    intro es hlen _ _ hval
    have hlen2 : es.length = 0 := by simpa using hlen.symm
    have hes : es = [] := List.eq_nil_of_length_eq_zero hlen2
    subst hes
    simp [valD] at hval
  | cons a as ih =>
    intro es hlen hds hes hval
    cases es with
    | nil => simp at hlen
    | cons b bs =>
      have hlen2 : as.length = bs.length := by simpa using hlen
      rw [valD_cons, valD_cons, hlen2] at hval
      have hvas : valD as < 10 ^ bs.length := by
        rw [← hlen2]
        exact valD_lt as (fun x hx => hds x (by simp [hx]))
      have hvbs : valD bs < 10 ^ bs.length := valD_lt bs (fun x hx => hes x (by simp [hx]))
      simp only [keyLt]
      rcases Nat.lt_trichotomy a b with h | h | h
      · rw [if_pos h]
      · subst h
        rw [if_neg (by omega : ¬ a < a), if_pos rfl]
        exact ih bs hlen2 (fun x hx => hds x (by simp [hx]))
          (fun x hx => hes x (by simp [hx])) (by omega)
      · exfalso
        have h1 : (b + 1) * 10 ^ bs.length ≤ a * 10 ^ bs.length :=
          Nat.mul_le_mul_right _ (by omega)
        have h2 : (b + 1) * 10 ^ bs.length = b * 10 ^ bs.length + 10 ^ bs.length := by
          ring
        omega

theorem fmt10_mono (j i : Nat) (hji : j < i) (hi : i < 10 ^ 10) :
    keyLt (fmt10 j) (fmt10 i) = true := by
  apply keyLt_of_val_lt
  · rw [fmt10_length j (by omega), fmt10_length i hi]
  · exact fmt10_lt10 j
  · exact fmt10_lt10 i
  · rw [fmt10_val, fmt10_val]
    exact hji

/-- `put_item` of a block item during deserialize: insert in the table's
lexicographic sort-key order (replacing an equal key). -/
def insertItem : List (List Nat × Bytes) → List Nat → Bytes → List (List Nat × Bytes)
  | [], k, d => [(k, d)]
  | (k2, d2) :: rest, k, d =>
    if keyLt k k2 then (k, d) :: (k2, d2) :: rest
    else if k = k2 then (k, d) :: rest
    else (k2, d2) :: insertItem rest k d

theorem insertItem_append :
    ∀ (t : List (List Nat × Bytes)) (k : List Nat) (d : Bytes),
      (∀ k2 ∈ t.map Prod.fst, keyLt k2 k = true) → insertItem t k d = t ++ [(k, d)] := by
  intro t
  induction t with
  | nil => intro k d _; rfl
  | cons e rest ih =>
    intro k d hlt
    obtain ⟨k2, d2⟩ := e
    have h2 : keyLt k2 k = true := hlt k2 (by simp)
    have h3 : keyLt k k2 = false := keyLt_asymm k2 k h2
    have h4 : k ≠ k2 := by
      intro hk
      subst hk
      rw [keyLt_irrefl] at h2
      exact absurd h2 (by simp)
    simp only [insertItem, h3]
    rw [if_neg (by simp), if_neg h4, List.cons_append]
    congr 1
    exact ih k d (fun x hx => hlt x (by simp only [List.map_cons, List.mem_cons]; exact Or.inr hx))

/-- The block items written by `deserialize_iter` for chunks `cs` starting at
block number `i`. -/
def tabOf : Nat → List Bytes → List (List Nat × Bytes)
  | _, [] => []
  | i, c :: cs => (fmt10 i, c) :: tabOf (i + 1) cs

/-- The write loop of `deserialize_iter`: put each chunk under the next
10-digit sort key, accumulating the total byte count for the final `FSIZE`
put. -/
def putChunks : List (List Nat × Bytes) → Nat → List Bytes → List (List Nat × Bytes) × Nat
  | t, _, [] => (t, 0)
  | t, i, c :: cs =>
    let r := putChunks (insertItem t (fmt10 i) c) (i + 1) cs
    (r.1, c.length + r.2)

/-- `DDBVFS.deserialize_iter(P, source)` on an otherwise-empty store: repack
the source into `block_size` chunks, write them under incrementing 10-digit
sort keys, and return the table partition together with the total byte count
written to `FSIZE/P`. -/
def deserializeIter (bsz : Nat) (source : Bytes) : List (List Nat × Bytes) × Nat :=
  putChunks [] 0 (chunkList bsz source)

/-- `DDBVFS.serialize_iter(P)`: the block data in ascending sort-key order. -/
def serializeIter (t : List (List Nat × Bytes)) : List Bytes := t.map (fun e => e.2)

theorem tabOf_data : ∀ (cs : List Bytes) (i : Nat), (tabOf i cs).map (fun e => e.2) = cs := by
  intro cs
  induction cs with
  | nil => intro i; rfl
  | cons c cs ih => intro i; simp [tabOf, ih]

theorem tabOf_keys : ∀ (cs : List Bytes) (i : Nat),
    (tabOf i cs).map Prod.fst = (List.range' i cs.length).map fmt10 := by
  intro cs
  induction cs with
  | nil => intro i; rfl
  | cons c cs ih =>
    intro i
    simp only [tabOf, List.map_cons, List.length_cons, List.range'_succ]
    rw [ih (i + 1)]

theorem putChunks_spec :
    ∀ (cs : List Bytes) (t : List (List Nat × Bytes)) (i : Nat),
      t.map Prod.fst = (List.range i).map fmt10 → i + cs.length ≤ 10 ^ 10 →
      (putChunks t i cs).1 = t ++ tabOf i cs ∧
      (putChunks t i cs).2 = (cs.map List.length).sum := by
  intro cs
  induction cs with
  | nil =>
    intro t i _ _
    exact ⟨by simp [putChunks, tabOf], by simp [putChunks]⟩
  | cons c cs ih =>
    intro t i hkeys hbound
    have hins : insertItem t (fmt10 i) c = t ++ [(fmt10 i, c)] := by
      apply insertItem_append
      intro k2 hk2
      rw [hkeys] at hk2
      obtain ⟨j, hj, rfl⟩ := List.mem_map.mp hk2
      have hji : j < i := List.mem_range.mp hj
      exact fmt10_mono j i hji (by simp only [List.length_cons] at hbound; omega)
    have hkeys2 : (t ++ [(fmt10 i, c)]).map Prod.fst = (List.range (i + 1)).map fmt10 := by
      rw [List.map_append, hkeys, List.range_succ, List.map_append]
      rfl
    have hbound2 : (i + 1) + cs.length ≤ 10 ^ 10 := by
      simp only [List.length_cons] at hbound
      omega
    obtain ⟨h1, h2⟩ := ih (t ++ [(fmt10 i, c)]) (i + 1) hkeys2 hbound2
    constructor
    · show (putChunks (insertItem t (fmt10 i) c) (i + 1) cs).1 = _
      rw [hins, h1, tabOf, List.append_assoc]
      rfl
    · show c.length + (putChunks (insertItem t (fmt10 i) c) (i + 1) cs).2 = _
      rw [hins, h2]
      simp

theorem chunkList_shapes (bsz : Nat) (hb : 0 < bsz) :
    ∀ n (s : Bytes), s.length = n → ∀ c ∈ chunkList bsz s, c ≠ [] ∧ c.length ≤ bsz := by
  intro n
  induction n using Nat.strong_induction_on with
  | _ n ih =>
    intro s hsn c hc
    subst hsn
    rw [chunkList_eq bsz hb s] at hc
    by_cases hz : s = []
    · rw [if_pos hz] at hc
      simp at hc
    · rw [if_neg hz] at hc
      have hpos : 0 < s.length := List.length_pos.mpr hz
      rcases List.mem_cons.mp hc with h | h
      · subst h
        constructor
        · intro htake
          rcases List.take_eq_nil_iff.mp htake with h | h
          · omega
          · exact hz h
        · rw [List.length_take]; omega
      · exact ih (s.drop bsz).length (by rw [List.length_drop]; omega) (s.drop bsz) rfl c h

theorem chunkList_full (bsz : Nat) (hb : 0 < bsz) :
    ∀ n (s : Bytes), s.length = n →
      ∀ i, i + 1 < (chunkList bsz s).length → ((chunkList bsz s).getD i []).length = bsz := by
  intro n
  induction n using Nat.strong_induction_on with
  | _ n ih =>
    intro s hsn i hi
    subst hsn
    rw [chunkList_eq bsz hb s] at hi ⊢
    by_cases hz : s = []
    · rw [if_pos hz] at hi
      simp at hi
    · rw [if_neg hz] at hi ⊢
      have hpos : 0 < s.length := List.length_pos.mpr hz
      cases i with
      | zero =>
        rw [List.getD_cons_zero, List.length_take]
        simp only [List.length_cons] at hi
        have hrest : 0 < (chunkList bsz (s.drop bsz)).length := by omega
        have hrne : chunkList bsz (s.drop bsz) ≠ [] := by
          intro hcn
          rw [hcn] at hrest
          simp at hrest
        have hdne : s.drop bsz ≠ [] := by
          intro hdn
          rw [chunkList_eq bsz hb _, if_pos hdn] at hrne
          exact hrne rfl
        have : 0 < (s.drop bsz).length := List.length_pos.mpr hdne
        rw [List.length_drop] at this
        omega
      | succ i =>
        rw [List.getD_cons_succ]
        simp only [List.length_cons] at hi
        exact ih (s.drop bsz).length (by rw [List.length_drop]; omega) (s.drop bsz) rfl i
          (by omega)

theorem chunkList_sum_length (bsz : Nat) (hb : 0 < bsz) (s : Bytes) :
    ((chunkList bsz s).map List.length).sum = s.length := by
  rw [← List.length_flatten, chunkList_flatten bsz hb s]

/-- C8: on an otherwise-empty store, `deserialize_iter(P, source)` repacks the
source into chunks of exactly `block_size` bytes (the last possibly shorter,
never empty) stored under the incrementing 10-digit zero-padded sort keys
`0000000000, 0000000001, …`, writes `FSIZE = len(source)`, and a following
`serialize_iter(P)` yields the stored blocks in ascending sort-key order, so
the concatenation of its chunks is byte-identical to the source.  (Stated for
at most `10^10` chunks, where the 10-digit zero-padding keeps the keys in
numeric order.) -/
theorem C8_round_trip (bsz : Nat) (hb : 0 < bsz) (source : Bytes)
    (hcount : (chunkList bsz source).length ≤ 10 ^ 10) :
    (serializeIter (deserializeIter bsz source).1).flatten = source ∧
    (deserializeIter bsz source).2 = source.length ∧
    (∀ c ∈ chunkList bsz source, c ≠ [] ∧ c.length ≤ bsz) ∧
    (∀ i, i + 1 < (chunkList bsz source).length →
      ((chunkList bsz source).getD i []).length = bsz) ∧
    (deserializeIter bsz source).1.map Prod.fst
      = (List.range (chunkList bsz source).length).map fmt10 ∧
    (∀ k ∈ (deserializeIter bsz source).1.map Prod.fst, k.length = 10) := by
  obtain ⟨h1, h2⟩ := putChunks_spec (chunkList bsz source) [] 0 (by simp) (by omega)
  have htab : (deserializeIter bsz source).1 = tabOf 0 (chunkList bsz source) := by
    unfold deserializeIter
    rw [h1]
    rfl
  have hkeys : (deserializeIter bsz source).1.map Prod.fst
      = (List.range (chunkList bsz source).length).map fmt10 := by
    rw [htab, tabOf_keys, List.range_eq_range']
  refine ⟨?_, ?_, ?_, ?_, hkeys, ?_⟩
  · rw [htab]
    unfold serializeIter
    rw [tabOf_data]
    exact chunkList_flatten bsz hb source
  · show (putChunks [] 0 (chunkList bsz source)).2 = source.length
    rw [h2]
    exact chunkList_sum_length bsz hb source
  · exact chunkList_shapes bsz hb source.length source rfl
  · exact chunkList_full bsz hb source.length source rfl
  · intro k hk
    rw [hkeys] at hk
    obtain ⟨j, hj, rfl⟩ := List.mem_map.mp hk
    have hji : j < (chunkList bsz source).length := List.mem_range.mp hj
    exact fmt10_length j (by omega)

theorem C8_round_trip_witness :
    (serializeIter (deserializeIter 2 [5, 6, 7]).1).flatten = [5, 6, 7] ∧
    (deserializeIter 2 [5, 6, 7]).2 = 3 ∧
    (∀ c ∈ chunkList 2 [5, 6, 7], c ≠ [] ∧ c.length ≤ 2) ∧
    (deserializeIter 2 [5, 6, 7]).1.map Prod.fst
      = (List.range (chunkList 2 [5, 6, 7]).length).map fmt10 :=
  ⟨(C8_round_trip 2 (by decide) [5, 6, 7] (by decide)).1,
   (C8_round_trip 2 (by decide) [5, 6, 7] (by decide)).2.1,
   (C8_round_trip 2 (by decide) [5, 6, 7] (by decide)).2.2.1,
   (C8_round_trip 2 (by decide) [5, 6, 7] (by decide)).2.2.2.2.1⟩

end DDBVFS
